import Mathlib

/-! # TDT4200 2019: image partitioning, convolution and inversion over MPI

A shallow embedding of `a3/src/main.c` (iterated convolution, scatter/gather)
and `a2_make/src/main.c` (colour inversion, send/receive), with the properties
of the partition tables, the convolution engine, the iteration loop and the
reassembled image.

Machine integers are 32 bits wide.  `unsigned int` arithmetic is arithmetic
modulo 2^32, so an unsigned expression is evaluated in `Int` and reduced once
by `toUInt`; a value stored in an `int` is brought into the signed range by
`toInt` (two's complement), and the result of a signed operation is wrapped
the same way.  Width, height and the iteration count are `unsigned int`, the
worker count and the three tables are `int`, samples are `unsigned char`.

Arrays are functions from indices to values; a write returns the updated
function.  Code of `bitmap.c`, which the two programs call but which is not
among the sources, appears as definitions marked as modelled.
-/

set_option autoImplicit false

namespace TDT4200

/-! ## Machine integers -/

/-- Value of an integer expression as an `unsigned int`: reduction modulo 2^32. -/
def toUInt (z : Int) : Nat := (z % 4294967296).toNat

/-- Value of an `unsigned int` stored in an `int`: two's complement. -/
def toInt (u : Nat) : Int :=
  if u % 4294967296 < 2147483648 then ((u % 4294967296 : Nat) : Int)
  else ((u % 4294967296 : Nat) : Int) - 4294967296

/-- Result of a signed `int` operation, wrapped into the 32-bit signed range. -/
def wrapInt (z : Int) : Int := toInt (toUInt z)

/-! ## The partition tables of the convolution program (`main`, lines 236-252) -/

/-- The three `int` arrays of `main` together with the running `offset`. -/
structure Tables where
  sendCounts : List Int
  displs : List Int
  heightScale : List Int
  offset : Int
deriving DecidableEq

/-- Right-hand side of line 241, `imageHeight / world_size + imageHeight % world_size`,
computed in `unsigned int` and stored in the `int` slot `heightScale[0]`. -/
def firstRows (imageHeight world_size : Nat) : Int :=
  toInt (toUInt (((imageHeight / world_size + imageHeight % world_size : Nat) : Int)))

/-- Right-hand side of line 248, `imageHeight / world_size`, stored in `heightScale[i]`. -/
def otherRows (imageHeight world_size : Nat) : Int :=
  toInt (toUInt (((imageHeight / world_size : Nat) : Int)))

/-- Right-hand side of lines 242 and 249, `heightScale[i] * info.imageWidth`: the `int` is
converted to `unsigned int`, the product is taken modulo 2^32 and stored in an `int`. -/
def pixelCount (rows : Int) (imageWidth : Nat) : Int :=
  toInt (toUInt (rows * (imageWidth : Int)))

/-- Lines 241-244: the entries of worker 0.  `imageHeight` and `imageWidth` are
`unsigned int` (they travel as `MPI_UNSIGNED`), `world_size` is an `int`. -/
def partitionInit (imageWidth imageHeight world_size : Nat) : Tables :=
  let hs : Int := firstRows imageHeight world_size
  let sc : Int := pixelCount hs imageWidth
  { sendCounts := [sc], displs := [0], heightScale := [hs], offset := wrapInt (0 + sc) }

/-- Lines 248-251: the body of the loop, writing index `i` (the next free slot). -/
def partitionStep (imageWidth imageHeight world_size : Nat) (t : Tables) : Tables :=
  let hs : Int := otherRows imageHeight world_size
  let sc : Int := pixelCount hs imageWidth
  { sendCounts := t.sendCounts ++ [sc]
    displs := t.displs ++ [t.offset]
    heightScale := t.heightScale ++ [hs]
    offset := wrapInt (t.offset + sc) }

/-- The loop `for (int i = 1; i < world_size; i++)`, run for `k` iterations. -/
def partitionLoop (imageWidth imageHeight world_size : Nat) : Nat → Tables → Tables
  | 0, t => t
  | k + 1, t =>
    partitionLoop imageWidth imageHeight world_size k
      (partitionStep imageWidth imageHeight world_size t)

/-- Lines 236-252 as a whole. -/
def partitionTables (imageWidth imageHeight world_size : Nat) : Tables :=
  partitionLoop imageWidth imageHeight world_size (world_size - 1)
    (partitionInit imageWidth imageHeight world_size)

/-- Entry `heightScale[i]` after the loop. -/
def heightScale (imageWidth imageHeight world_size i : Nat) : Int :=
  (partitionTables imageWidth imageHeight world_size).heightScale.getD i 0

/-- Entry `sendCounts[i]` after the loop. -/
def sendCounts (imageWidth imageHeight world_size i : Nat) : Int :=
  (partitionTables imageWidth imageHeight world_size).sendCounts.getD i 0

/-- Entry `displs[i]` after the loop. -/
def displs (imageWidth imageHeight world_size i : Nat) : Int :=
  (partitionTables imageWidth imageHeight world_size).displs.getD i 0

/-- Row count of worker `i` in the words of the partitioning policy: worker 0 receives
base plus remainder rows, every other worker exactly base rows. -/
def rowCount (totalRows workerCount i : Nat) : Nat :=
  if i = 0 then totalRows / workerCount + totalRows % workerCount else totalRows / workerCount

/-- First global row of worker `i` in the words of the partitioning policy: offsets
accumulate in worker-index order starting at 0. -/
def rowStart (totalRows workerCount i : Nat) : Nat :=
  ((List.range i).map (rowCount totalRows workerCount)).sum

/-! ## The kernel catalogue (`a3/src/main.c`, lines 14-48) -/

/-- A `float` kernel factor, represented by the fraction `num / den` it denotes.  The
catalogue factors `1.0` and `1.0 / 256.0` are powers of two and are exact in binary
floating point. -/
structure KernelFactor where
  num : Int
  den : Nat
deriving DecidableEq

def sobelYKernel : List Int := [-1, -2, -1, 0, 0, 0, 1, 2, 1]

def sobelYKernelFactor : KernelFactor := ⟨1, 1⟩

def sobelXKernel : List Int := [-1, -0, -1, -2, 0, -2, -1, 0, -1, 0]

def sobelXKernelFactor : KernelFactor := ⟨1, 1⟩

def laplacian1Kernel : List Int := [-1, -4, -1, -4, 20, -4, -1, -4, -1]

def laplacian1KernelFactor : KernelFactor := ⟨1, 1⟩

def laplacian2Kernel : List Int := [0, 1, 0, 1, -4, 1, 0, 1, 0]

def laplacian2KernelFactor : KernelFactor := ⟨1, 1⟩

def laplacian3Kernel : List Int := [-1, -1, -1, -1, 8, -1, -1, -1, -1]

def laplacian3KernelFactor : KernelFactor := ⟨1, 1⟩

def gaussianKernel : List Int :=
  [1, 4, 6, 4, 1, 4, 16, 24, 16, 4, 6, 24, 36, 24, 6, 4, 16, 24, 16, 4, 1, 4, 6, 4, 1]

def gaussianKernelFactor : KernelFactor := ⟨1, 256⟩

/-- The catalogue as the comment of lines 9-12 describes it: each kernel array with the
dimension it is to be used with. -/
def kernelCatalogue : List (List Int × Nat) :=
  [(sobelYKernel, 3), (sobelXKernel, 3), (laplacian1Kernel, 3), (laplacian2Kernel, 3),
    (laplacian3Kernel, 3), (gaussianKernel, 5)]

/-- The cast `(int *)kernelArray`: the array read through a pointer. -/
def kernelPtr (k : List Int) : Nat → Int := fun i => k.getD i 0

/-! ## The convolution engine (`applyKernel`, lines 59-91) -/

/-- Line 80, `aggregate *= kernelFactor`: the aggregate is converted to `float`,
multiplied, and converted back to `int`, which truncates toward zero.  The fraction
arithmetic is that of the `float`s whenever the conversion and the product are exact,
as they are for the two catalogue factors on aggregates of magnitude at most 2^24.
Outside that range (a larger aggregate, or a factor that is not a power of two) the
`float` round trip rounds and this exact value is not the one the program computes;
statements about the value stored are made inside it, or on `applyKernelWith`. -/
def scaleAggregate (kernelFactor : KernelFactor) (aggregate : Int) : Int :=
  Int.tdiv (aggregate * kernelFactor.num) (kernelFactor.den : Int)

/-- Conversion of an `int` to `unsigned char`: reduction modulo 256. -/
def toUChar (z : Int) : Nat := (z % 256).toNat

/-- Lines 81-88: the sample stored in `out[y][x]` for a scaled aggregate. -/
def storeSample (aggregate : Int) : Nat :=
  if aggregate > 0 then
    toUChar (if aggregate > 255 then 255 else aggregate)
  else
    toUChar 0

/-- Lines 72-77: the body of the `kx` loop for destination `(x, y)` and kernel
position `(kx, ky)`, returning the new `aggregate`.  `y + (ky - kernelCenter)` is
unsigned arithmetic whose result is stored in an `int`; `nky * kernelDim + nkx` is
unsigned arithmetic used as the index. -/
def kernelTerm (inp : Nat → Nat → Nat) (width height : Nat) (kernel : Nat → Int)
    (kernelDim : Nat) (y x ky kx : Nat) (aggregate : Int) : Int :=
  let kernelCenter : Nat := kernelDim / 2
  let nky : Int := toInt (toUInt ((kernelDim : Int) - 1 - (ky : Int)))
  let nkx : Int := toInt (toUInt ((kernelDim : Int) - 1 - (kx : Int)))
  let yy : Int := toInt (toUInt ((y : Int) + ((ky : Int) - (kernelCenter : Int))))
  let xx : Int := toInt (toUInt ((x : Int) + ((kx : Int) - (kernelCenter : Int))))
  if xx ≥ 0 ∧ xx < toInt width ∧ yy ≥ 0 ∧ yy < toInt height then
    wrapInt (aggregate
      + wrapInt ((inp yy.toNat xx.toNat : Int) * kernel (toUInt (nky * (kernelDim : Int) + nkx))))
  else
    aggregate

/-- Lines 70-78: the `kx` loop. -/
def kernelRow (inp : Nat → Nat → Nat) (width height : Nat) (kernel : Nat → Int)
    (kernelDim : Nat) (y x ky : Nat) (aggregate : Int) : Int :=
  (List.range kernelDim).foldl
    (fun agg kx => kernelTerm inp width height kernel kernelDim y x ky kx agg) aggregate

/-- Lines 66-79: `aggregate` after the `ky` loop, starting from 0. -/
def kernelSum (inp : Nat → Nat → Nat) (width height : Nat) (kernel : Nat → Int)
    (kernelDim : Nat) (y x : Nat) : Int :=
  (List.range kernelDim).foldl
    (fun agg ky => kernelRow inp width height kernel kernelDim y x ky agg) 0

/-- Lines 66-88: the sample written to `out[y][x]`. -/
def cellValue (inp : Nat → Nat → Nat) (width height : Nat) (kernel : Nat → Int)
    (kernelDim : Nat) (kernelFactor : KernelFactor) (y x : Nat) : Nat :=
  storeSample (scaleAggregate kernelFactor (kernelSum inp width height kernel kernelDim y x))

/-- The assignment `out[y][x] = v` on a two-dimensional array. -/
def writeCell (out : Nat → Nat → Nat) (y x v : Nat) : Nat → Nat → Nat :=
  fun y1 x1 => if y1 = y ∧ x1 = x then v else out y1 x1

/-- Lines 64-89: the `x` loop for row `y`. -/
def applyKernelRow (out inp : Nat → Nat → Nat) (width height : Nat) (kernel : Nat → Int)
    (kernelDim : Nat) (kernelFactor : KernelFactor) (y : Nat) : Nat → Nat → Nat :=
  (List.range width).foldl
    (fun o x => writeCell o y x (cellValue inp width height kernel kernelDim kernelFactor y x)) out

/-- The function `applyKernel` (lines 59-91): the array `out` after the call.  `out` and
`in` are distinct buffers, as they are at the only call site. -/
def applyKernel (out inp : Nat → Nat → Nat) (width height : Nat) (kernel : Nat → Int)
    (kernelDim : Nat) (kernelFactor : KernelFactor) : Nat → Nat → Nat :=
  (List.range height).foldl
    (fun o y => applyKernelRow o inp width height kernel kernelDim kernelFactor y) out

/-- Lines 66-88 with line 80 left open: `scale` is what `aggregate *= kernelFactor` does
to the `int` aggregate for the factor at hand, whatever the `float` round trip yields
(rounding included).  Everything else is as in `cellValue`. -/
def cellValueWith (scale : Int → Int) (inp : Nat → Nat → Nat) (width height : Nat)
    (kernel : Nat → Int) (kernelDim : Nat) (y x : Nat) : Nat :=
  storeSample (scale (kernelSum inp width height kernel kernelDim y x))

/-- Lines 64-89 with line 80 left open: the `x` loop for row `y`. -/
def applyKernelRowWith (scale : Int → Int) (out inp : Nat → Nat → Nat) (width height : Nat)
    (kernel : Nat → Int) (kernelDim : Nat) (y : Nat) : Nat → Nat → Nat :=
  (List.range width).foldl
    (fun o x => writeCell o y x (cellValueWith scale inp width height kernel kernelDim y x)) out

/-- The function `applyKernel` (lines 59-91) with line 80 left open: the array `out`
after the call, for any effect `scale` of the `float` scaling on the `int` aggregate. -/
def applyKernelWith (scale : Int → Int) (out inp : Nat → Nat → Nat) (width height : Nat)
    (kernel : Nat → Int) (kernelDim : Nat) : Nat → Nat → Nat :=
  (List.range height).foldl
    (fun o y => applyKernelRowWith scale o inp width height kernel kernelDim y) out

/-! ## The iteration loop (`main`, lines 285-299) -/

/-- A `bmpImageChannel` as `main` uses it: `width`, `height` and the rows `data[y][x]`.
`addr` stands for the address of the allocation, so that the two buffers of the loop
can be told apart. -/
structure BmpImageChannel where
  addr : Nat
  width : Nat
  height : Nat
  data : Nat → Nat → Nat

/-- The function `swapImageChannel` (lines 51-56) on the two pointers `*one` and `*two`:
the pair of their values after the call. -/
def swapImageChannel (one two : BmpImageChannel) : BmpImageChannel × BmpImageChannel :=
  let helper := two
  let two := one
  let one := helper
  (one, two)

/-- One pass of the loop body (lines 288-297) on the pair
`(processImageChannel, imageChannel)`. -/
def iterationStep (kernel : Nat → Int) (kernelDim : Nat) (kernelFactor : KernelFactor)
    (s : BmpImageChannel × BmpImageChannel) : BmpImageChannel × BmpImageChannel :=
  let processImageChannel := s.1
  let imageChannel := s.2
  let written : BmpImageChannel :=
    { processImageChannel with
      data := applyKernel processImageChannel.data imageChannel.data imageChannel.width
        imageChannel.height kernel kernelDim kernelFactor }
  swapImageChannel written imageChannel

/-- The loop `for (unsigned int i = 0; i < info.iterations; i++)` of lines 286-298. -/
def iterationLoop (kernel : Nat → Int) (kernelDim : Nat) (kernelFactor : KernelFactor) :
    Nat → BmpImageChannel × BmpImageChannel → BmpImageChannel × BmpImageChannel
  | 0, s => s
  | k + 1, s =>
    iterationLoop kernel kernelDim kernelFactor k (iterationStep kernel kernelDim kernelFactor s)

/-- Lines 285-299 for an extracted channel: `processImageChannel` is allocated with the
dimensions of `imageChannel` at the address `fresh`, the loop runs, and the result is the
pair (buffer that is freed, buffer handed to `mapImageChannel`). -/
def iterate (imageChannel : BmpImageChannel) (fresh : Nat) (kernel : Nat → Int)
    (kernelDim : Nat) (kernelFactor : KernelFactor) (iterations : Nat) :
    BmpImageChannel × BmpImageChannel :=
  iterationLoop kernel kernelDim kernelFactor iterations
    ({ addr := fresh, width := imageChannel.width, height := imageChannel.height,
       data := fun _ _ => 0 }, imageChannel)

/-- A single pass of `applyKernel` as a function from planes to planes: the plane read
is `inp`, the plane returned is the one written into a zeroed buffer. -/
def singlePass (width height : Nat) (kernel : Nat → Int) (kernelDim : Nat)
    (kernelFactor : KernelFactor) (inp : Nat → Nat → Nat) : Nat → Nat → Nat :=
  applyKernel (fun _ _ => 0) inp width height kernel kernelDim kernelFactor

/-- The single pass applied `n` times in succession, each pass reading the output of the
previous one. -/
def passes (width height : Nat) (kernel : Nat → Int) (kernelDim : Nat)
    (kernelFactor : KernelFactor) : Nat → (Nat → Nat → Nat) → Nat → Nat → Nat
  | 0, plane => plane
  | n + 1, plane =>
    passes width height kernel kernelDim kernelFactor n
      (singlePass width height kernel kernelDim kernelFactor plane)

/-- The 5 by 1 plane `[10, 20, 30, 20, 10]`, allocated at address 1. -/
def rowPlane : BmpImageChannel :=
  { addr := 1, width := 5, height := 1, data := fun _ x => [10, 20, 30, 20, 10].getD x 0 }

/-- A plane of one row and 2^31 columns, every sample 7, allocated at address 1. -/
def widePlane : BmpImageChannel :=
  { addr := 1, width := 2147483648, height := 1, data := fun _ _ => 7 }

/-! ## The inversion program (`a2_make/src/main.c`) -/

/-- A pixel: three `unsigned char` components, as the datatype `pixel_dt` of three
`MPI_UNSIGNED_CHAR` describes it. -/
structure Pixel where
  r : Nat
  g : Nat
  b : Nat
deriving DecidableEq

/-- Modelled from the spec: the component-wise inversion performed by `invertColor`,
whose source (`bitmap.c`) is not part of the repository sources; each colour component
`c` becomes 255 minus `c`. -/
def invertPixel (p : Pixel) : Pixel :=
  { r := 255 - p.r, g := 255 - p.g, b := 255 - p.b }

/-- Modelled from the spec: `invertColor(image, xsize, ysize)` of `bitmap.c`, which is not
part of the repository sources, inverts the first `xsize * ysize` pixels of `image`. -/
def invertColor (image : Nat → Pixel) (xsize ysize : Nat) : Nat → Pixel :=
  fun p => if p < xsize * ysize then invertPixel (image p) else image p

/-- The message of `MPI_Send(&buf[offset], count, pixel_dt, ...)`: a copy of the
addressed slice. -/
def sendSlice (buf : Nat → Pixel) (offset count : Nat) : List Pixel :=
  (List.range count).map (fun j => buf (offset + j))

/-- The buffer after `MPI_Recv(&buf[offset], count, pixel_dt, ...)` of a message of
`count` pixels: the message is copied over the addressed slice. -/
def recvSlice (buf : Nat → Pixel) (offset : Nat) (msg : List Pixel) : Nat → Pixel :=
  fun p => if offset ≤ p ∧ p < offset + msg.length then msg.getD (p - offset) ⟨0, 0, 0⟩ else buf p

/-- Lines 49-53: a worker of rank other than 0.  Its `data` is zeroed by `calloc`,
receives the message, is inverted over `yScale` rows and is sent back. -/
def workerProcess (XSIZE yScale : Nat) (msg : List Pixel) : List Pixel :=
  let data : Nat → Pixel := fun _ => ⟨0, 0, 0⟩
  let data := recvSlice data 0 msg
  let data := invertColor data XSIZE yScale
  sendSlice data 0 (yScale * XSIZE)

/-- Lines 23 and 31-45: rank 0, from the loaded `image` to the `image` handed to `savebmp`.
`XSIZE` and `YSIZE` are the macros of lines 6-7 (2560 and 2048 in the program).  The
reply of worker `i` is its `workerProcess` on the message rank 0 sent to it. -/
def rootProcess (XSIZE YSIZE world_size : Nat) (image : Nat → Pixel) : Nat → Pixel :=
  let yScale := YSIZE / world_size
  let rest := YSIZE % world_size
  let replies : Nat → List Pixel := fun i =>
    workerProcess XSIZE yScale (sendSlice image ((yScale * i + rest) * XSIZE) (yScale * XSIZE))
  let image := invertColor image XSIZE (yScale + rest)
  (List.range (world_size - 1)).foldl
    (fun img j => recvSlice img ((yScale * (j + 1) + rest) * XSIZE) (replies (j + 1))) image

/-- The 4 by 4 raster whose pixels are all (200, 100, 50). -/
def plainRaster : Nat → Pixel := fun _ => ⟨200, 100, 50⟩

/-! ## Scatter, per-rank work and gather (`main`, lines 254-316) -/

/-- A `bmpImage` as `main` uses it: `width`, `height` and the row-major pixels
`rawdata[row * width + col]`. -/
structure BmpImage where
  width : Nat
  height : Nat
  rawdata : Nat → Pixel

/-- Modelled from the spec: `newBmpImage(width, height)` of `bitmap.c`, which is not part
of the repository sources, allocates a raster of the given dimensions; its pixels are
taken as zeroed. -/
def newBmpImage (width height : Nat) : BmpImage :=
  { width := width, height := height, rawdata := fun _ => ⟨0, 0, 0⟩ }

/-- Modelled from the spec: `newBmpImageChannel(width, height)` of `bitmap.c`, which is not
part of the repository sources, allocates a plane of the given dimensions, here at
address `addr`; its samples are taken as zeroed. -/
def newBmpImageChannel (addr width height : Nat) : BmpImageChannel :=
  { addr := addr, width := width, height := height, data := fun _ _ => 0 }

/-- Modelled from the spec: `extractAverage` of `bitmap.c`, which is not part of the
repository sources: the sum of the three components divided by 3 in integer division. -/
def extractAverage (p : Pixel) : Nat := (p.r + p.g + p.b) / 3

/-- Modelled from the spec: `mapEqual` of `bitmap.c`, which is not part of the repository
sources: the sample is replicated to all three components. -/
def mapEqual (v : Nat) : Pixel := { r := v, g := v, b := v }

/-- Modelled from the spec: `extractImageChannel(to, from, extract)` of `bitmap.c`, which
is not part of the repository sources, reduces each pixel of `from` to one sample of `to`;
the two have the same dimensions at the call site. -/
def extractImageChannel (dst : BmpImageChannel) (src : BmpImage) (extract : Pixel → Nat) :
    BmpImageChannel :=
  { dst with
    data := fun y x =>
      if y < dst.height ∧ x < dst.width then extract (src.rawdata (y * src.width + x))
      else dst.data y x }

/-- Modelled from the spec: `mapImageChannel(to, from, map)` of `bitmap.c`, which is not
part of the repository sources, expands each sample of `from` to one pixel of `to`; the
two have the same dimensions at the call site. -/
def mapImageChannel (dst : BmpImage) (src : BmpImageChannel) (map : Nat → Pixel) : BmpImage :=
  { dst with
    rawdata := fun p =>
      if p < dst.width * dst.height then map (src.data (p / dst.width) (p % dst.width))
      else dst.rawdata p }

/-- The receive buffer of one rank after `MPI_Scatterv`: `count` pixels of the root's
send buffer, starting at displacement `displ`, are copied to its start. -/
def scatterSlice (sendbuf : Nat → Pixel) (displ count : Int) (recvbuf : Nat → Pixel) :
    Nat → Pixel :=
  fun j => if (j : Int) < count then sendbuf (displ + (j : Int)).toNat else recvbuf j

/-- The root's receive buffer after the contribution of one rank to `MPI_Gatherv`: the
`count` pixels sent by the rank are copied to displacement `displ`. -/
def gatherSlice (recvbuf : Nat → Pixel) (displ count : Int) (sendbuf : Nat → Pixel) :
    Nat → Pixel :=
  fun p =>
    if displ ≤ (p : Int) ∧ (p : Int) < displ + count then sendbuf ((p : Int) - displ).toNat
    else recvbuf p

/-- The test under which the calls of `MPI_Scatterv` and `MPI_Gatherv` are valid: every
count is non-negative (MPI rejects a negative count) and every slice lies inside the
root's raster of `size` pixels. -/
def countsValid (imageWidth imageHeight world_size size : Nat) : Bool :=
  (List.range world_size).all (fun i =>
    decide (0 ≤ sendCounts imageWidth imageHeight world_size i
      ∧ 0 ≤ displs imageWidth imageHeight world_size i
      ∧ displs imageWidth imageHeight world_size i
          + sendCounts imageWidth imageHeight world_size i ≤ (size : Int)))

/-- Lines 254-255 at rank `rank`: `buf` is allocated with `heightScale[rank]` rows and
receives its slice of the root's `image`. -/
def rankBuffer (image : BmpImage) (world_size rank : Nat) : BmpImage :=
  let buf := newBmpImage image.width
    (toUInt (heightScale image.width image.height world_size rank))
  { buf with
    rawdata := scatterSlice image.rawdata (displs image.width image.height world_size rank)
      (sendCounts image.width image.height world_size rank) buf.rawdata }

/-- Lines 260-312 at one rank: extraction of the average channel, the iteration loop and
the mapping back into `buf`.  The kernel of line 292 (`laplacian1Kernel`, 3,
`laplacian1KernelFactor` in the program as committed) is a parameter. -/
def rankWork (buf : BmpImage) (kernel : Nat → Int) (kernelDim : Nat)
    (kernelFactor : KernelFactor) (iterations : Nat) : BmpImage :=
  let imageChannel := newBmpImageChannel 1 buf.width buf.height
  let imageChannel := extractImageChannel imageChannel buf extractAverage
  let channels := iterate imageChannel 2 kernel kernelDim kernelFactor iterations
  mapImageChannel buf channels.2 mapEqual

/-- Lines 236-316 as seen from rank 0: the partition tables, the scatter, the work of
every rank and the gather into `image`, which is then saved.  The result is `none` when
the counts are not valid for the MPI calls. -/
def convolutionProgram (image : BmpImage) (world_size : Nat) (kernel : Nat → Int)
    (kernelDim : Nat) (kernelFactor : KernelFactor) (iterations : Nat) : Option BmpImage :=
  if countsValid image.width image.height world_size (image.width * image.height) then
    some { image with
      rawdata := (List.range world_size).foldl
        (fun recvbuf i =>
          gatherSlice recvbuf (displs image.width image.height world_size i)
            (sendCounts image.width image.height world_size i)
            (rankWork (rankBuffer image world_size i) kernel kernelDim kernelFactor
              iterations).rawdata)
        image.rawdata }
  else
    none

/-- The 3 by 4 raster whose pixels are all (10, 10, 10). -/
def greyRaster : BmpImage := { width := 3, height := 4, rawdata := fun _ => ⟨10, 10, 10⟩ }

/-- A raster of 65536 by 32768 pixels, all (10, 10, 10). -/
def hugeRaster : BmpImage :=
  { width := 65536, height := 32768, rawdata := fun _ => ⟨10, 10, 10⟩ }

/-! ## The convolution in the words of the specification -/

/-- A source sample with zero padding: cells outside `[0, W) × [0, H)` contribute 0. -/
def paddedSample (inp : Nat → Nat → Nat) (W H : Nat) (yy xx : Int) : Int :=
  if 0 ≤ xx ∧ xx < (W : Int) ∧ 0 ≤ yy ∧ yy < (H : Int) then (inp yy.toNat xx.toNat : Int) else 0

/-- One term of the footprint sum: the zero-padded source sample at
`(x + kx - D/2, y + ky - D/2)` times the flipped weight `kernel[(D-1-ky)*D + (D-1-kx)]`. -/
def footprintTerm (inp : Nat → Nat → Nat) (W H : Nat) (kernel : Nat → Int) (D : Nat)
    (y x ky kx : Nat) : Int :=
  paddedSample inp W H ((y : Int) + (ky : Int) - ((D / 2 : Nat) : Int))
      ((x : Int) + (kx : Int) - ((D / 2 : Nat) : Int))
    * kernel ((D - 1 - ky) * D + (D - 1 - kx))

/-- The sum `S` over the kernel footprint centred at `(x, y)`, the kernel applied flipped. -/
def convolutionSum (inp : Nat → Nat → Nat) (W H : Nat) (kernel : Nat → Int) (D : Nat)
    (y x : Nat) : Int :=
  ((List.range D).map (fun ky : Nat =>
    ((List.range D).map (fun kx : Nat => footprintTerm inp W H kernel D y x ky kx)).sum)).sum

/-- The plane of a raster: the average channel of its pixels. -/
def planeOf (image : BmpImage) : Nat → Nat → Nat :=
  fun y x => extractAverage (image.rawdata (y * image.width + x))

/-- Worker `i`'s own row slice of a plane of `H` rows split over `n` workers. -/
def slicePlane (plane : Nat → Nat → Nat) (H n i : Nat) : Nat → Nat → Nat :=
  fun y x => plane (rowStart H n i + y) x

/-- The samples of a plane of `W` by `H` cells, row by row. -/
def planeSamples (W H : Nat) (plane : Nat → Nat → Nat) : List Nat :=
  (List.range H).flatMap (fun y => (List.range W).map (fun x => plane y x))

/-- The concatenation, in worker-index order, of the iterated single pass run
independently on each worker's own row slice. -/
def seamedSamples (plane : Nat → Nat → Nat) (W H n : Nat) (kernel : Nat → Int) (D : Nat)
    (f : KernelFactor) (iterations : Nat) : List Nat :=
  (List.range n).flatMap (fun i =>
    planeSamples W (rowCount H n i)
      (passes W (rowCount H n i) kernel D f iterations (slicePlane plane H n i)))

/-- Saturation to the intensity range `[0, 255]`. -/
def clamp255 (v : Int) : Int := max 0 (min 255 v)

/-! ## Machine-integer lemmas -/

theorem toUInt_of_nonneg_lt (z : Int) (h0 : 0 ≤ z) (h1 : z < 4294967296) :
    toUInt z = z.toNat := by
  unfold toUInt
  omega

theorem toUInt_natCast (u : Nat) (h : u < 4294967296) : toUInt (u : Int) = u := by
  unfold toUInt
  omega

theorem toUInt_lt (z : Int) : toUInt z < 4294967296 := by
  unfold toUInt
  omega

theorem toInt_of_lt (u : Nat) (h : u < 2147483648) : toInt u = (u : Int) := by
  unfold toInt
  have h1 : u % 4294967296 = u := Nat.mod_eq_of_lt (by omega)
  rw [h1, if_pos h]

theorem toInt_ge (u : Nat) : -2147483648 ≤ toInt u := by
  unfold toInt
  split <;> omega

theorem toInt_lt (u : Nat) : toInt u < 2147483648 := by
  unfold toInt
  split <;> omega

theorem wrapInt_of_range (z : Int) (h0 : -2147483648 ≤ z) (h1 : z < 2147483648) :
    wrapInt z = z := by
  unfold wrapInt toInt toUInt
  split <;> omega

theorem wrapInt_toInt (u : Nat) : wrapInt (toInt u) = toInt u :=
  wrapInt_of_range _ (toInt_ge u) (toInt_lt u)

theorem wrapInt_wrapInt (z : Int) : wrapInt (wrapInt z) = wrapInt z :=
  wrapInt_toInt _

theorem wrapInt_add_left (a b : Int) : wrapInt (wrapInt a + b) = wrapInt (a + b) := by
  unfold wrapInt toInt toUInt
  split <;> split <;> split <;> omega

theorem toInt_toUInt_natCast (u : Nat) (h : u < 2147483648) : toInt (toUInt (u : Int)) = u := by
  rw [toUInt_natCast u (by omega), toInt_of_lt u h]

/-! ## Closed forms of the partition tables -/

theorem partitionLoop_heightScale (W H n k : Nat) (t : Tables) :
    (partitionLoop W H n k t).heightScale
      = t.heightScale ++ List.replicate k (otherRows H n) := by
  induction k generalizing t with
  | zero => simp [partitionLoop]
  | succ k ih =>
    simp [partitionLoop, ih, partitionStep, List.replicate_succ]

theorem partitionLoop_sendCounts (W H n k : Nat) (t : Tables) :
    (partitionLoop W H n k t).sendCounts
      = t.sendCounts ++ List.replicate k (pixelCount (otherRows H n) W) := by
  induction k generalizing t with
  | zero => simp [partitionLoop]
  | succ k ih =>
    simp [partitionLoop, ih, partitionStep, List.replicate_succ]

theorem partitionLoop_displs (W H n k : Nat) (t : Tables) (ht : wrapInt t.offset = t.offset) :
    (partitionLoop W H n k t).displs
      = t.displs ++ (List.range k).map
          (fun j : Nat => wrapInt (t.offset + (j : Int) * pixelCount (otherRows H n) W)) := by
  induction k generalizing t with
  | zero => simp [partitionLoop]
  | succ k ih =>
    rw [partitionLoop, ih _ (by simp [partitionStep, wrapInt_wrapInt])]
    rw [List.range_succ_eq_map]
    simp only [partitionStep, List.append_assoc, List.singleton_append, List.map_cons,
      List.map_map]
    congr 2
    · simp [ht]
    · apply List.map_congr_left
      intro j _
      simp only [Function.comp, wrapInt_add_left]
      congr 1
      push_cast
      ring

theorem pixelCount_wrap (r : Int) (W : Nat) : wrapInt (pixelCount r W) = pixelCount r W :=
  wrapInt_toInt _

theorem heightScale_list (W H n : Nat) :
    (partitionTables W H n).heightScale
      = firstRows H n :: List.replicate (n - 1) (otherRows H n) := by
  simp [partitionTables, partitionLoop_heightScale, partitionInit]

theorem sendCounts_list (W H n : Nat) :
    (partitionTables W H n).sendCounts
      = pixelCount (firstRows H n) W :: List.replicate (n - 1) (pixelCount (otherRows H n) W) := by
  simp [partitionTables, partitionLoop_sendCounts, partitionInit]

theorem displs_list (W H n : Nat) :
    (partitionTables W H n).displs
      = 0 :: (List.range (n - 1)).map (fun j : Nat =>
          wrapInt (pixelCount (firstRows H n) W + (j : Int) * pixelCount (otherRows H n) W)) := by
  unfold partitionTables
  rw [partitionLoop_displs]
  · simp [partitionInit, pixelCount_wrap]
  · simp [partitionInit, pixelCount_wrap, wrapInt_wrapInt]

theorem tables_length (W H n : Nat) (hn : 1 ≤ n) :
    (partitionTables W H n).heightScale.length = n
      ∧ (partitionTables W H n).sendCounts.length = n
      ∧ (partitionTables W H n).displs.length = n := by
  rw [heightScale_list, sendCounts_list, displs_list]
  simp
  omega

theorem heightScale_zero (W H n : Nat) : heightScale W H n 0 = firstRows H n := by
  simp [heightScale, heightScale_list]

theorem heightScale_succ (W H n i : Nat) (hi : i + 1 < n) :
    heightScale W H n (i + 1) = otherRows H n := by
  have h : i < n - 1 := by omega
  simp [heightScale, heightScale_list, List.getD_eq_getElem?_getD, List.getElem?_replicate, h]

theorem sendCounts_zero (W H n : Nat) : sendCounts W H n 0 = pixelCount (firstRows H n) W := by
  simp [sendCounts, sendCounts_list]

theorem sendCounts_succ (W H n i : Nat) (hi : i + 1 < n) :
    sendCounts W H n (i + 1) = pixelCount (otherRows H n) W := by
  have h : i < n - 1 := by omega
  simp [sendCounts, sendCounts_list, List.getD_eq_getElem?_getD, List.getElem?_replicate, h]

theorem displs_zero (W H n : Nat) : displs W H n 0 = 0 := by
  simp [displs, displs_list]

theorem displs_succ (W H n i : Nat) (hi : i + 1 < n) :
    displs W H n (i + 1)
      = wrapInt (pixelCount (firstRows H n) W + (i : Int) * pixelCount (otherRows H n) W) := by
  have h : i < n - 1 := by omega
  simp [displs, displs_list, List.getD_eq_getElem?_getD, h]

theorem firstRows_eq (H n : Nat) (h : H / n + H % n < 2147483648) :
    firstRows H n = ((H / n + H % n : Nat) : Int) :=
  toInt_toUInt_natCast _ h

theorem otherRows_eq (H n : Nat) (h : H / n < 2147483648) :
    otherRows H n = ((H / n : Nat) : Int) :=
  toInt_toUInt_natCast _ h

theorem pixelCount_eq (r W : Nat) (h : r * W < 2147483648) :
    pixelCount (r : Int) W = ((r * W : Nat) : Int) := by
  unfold pixelCount
  rw [← Nat.cast_mul]
  exact toInt_toUInt_natCast _ h

theorem pixelCount_width_zero (r : Int) : pixelCount r 0 = 0 := by
  simp [pixelCount, toUInt, toInt]

theorem pixelCount_rows_zero (W : Nat) : pixelCount 0 W = 0 := by
  simp [pixelCount, toUInt, toInt]

theorem heightScale_sum (W H n : Nat) (hn : 1 ≤ n) (hfit : H / n + H % n < 2147483648) :
    (partitionTables W H n).heightScale.sum = (H : Int) := by
  rw [heightScale_list, firstRows_eq H n hfit, otherRows_eq H n (by omega)]
  simp only [List.sum_cons, List.sum_replicate, nsmul_eq_mul]
  have h := Nat.div_add_mod H n
  have h2 : ((n - 1 : Nat) : Int) = (n : Int) - 1 := by omega
  rw [h2]
  have h3 : (n : Int) * ((H / n : Nat) : Int) + ((H % n : Nat) : Int) = (H : Int) := by
    exact_mod_cast h
  push_cast
  push_cast at h3
  linarith

/-- Claim C1, with the bound that the unbounded wording lacks: for every worker count
`n ≥ 1` and image height `H` whose first row count `H / n + H % n` fits an `int`
(in particular every `H < 2^31`), `heightScale` has `n` entries, entry 0 is
`H / n + H % n`, every other entry is `H / n`, and the entries sum to `H`. -/
theorem partition_row_counts (W H n : Nat) (hn : 1 ≤ n) (hnH : n ≤ H)
    (hfit : H / n + H % n < 2147483648) :
    (partitionTables W H n).heightScale.length = n
      ∧ heightScale W H n 0 = ((H / n + H % n : Nat) : Int)
      ∧ (∀ i, 1 ≤ i → i < n → heightScale W H n i = ((H / n : Nat) : Int))
      ∧ (partitionTables W H n).heightScale.sum = (H : Int) := by
  have _ := hnH
  refine ⟨(tables_length W H n hn).1, ?_, ?_, heightScale_sum W H n hn hfit⟩
  · rw [heightScale_zero, firstRows_eq H n hfit]
  · intro i hi hin
    obtain ⟨j, rfl⟩ : ∃ j, i = j + 1 := ⟨i - 1, by omega⟩
    rw [heightScale_succ W H n j hin, otherRows_eq H n (by omega)]

/-- Witness of `partition_row_counts`: height 4 on 3 workers gives the row counts 2, 1, 1. -/
theorem partition_row_counts_witness :
    (1 ≤ 3 ∧ 3 ≤ 4 ∧ 4 / 3 + 4 % 3 < 2147483648)
      ∧ (partitionTables 3 4 3).heightScale = [2, 1, 1]
      ∧ ((partitionTables 3 4 3).heightScale.length = 3
        ∧ heightScale 3 4 3 0 = ((4 / 3 + 4 % 3 : Nat) : Int)
        ∧ (∀ i, 1 ≤ i → i < 3 → heightScale 3 4 3 i = ((4 / 3 : Nat) : Int))
        ∧ (partitionTables 3 4 3).heightScale.sum = ((4 : Nat) : Int)) :=
  ⟨by decide, by decide, partition_row_counts 3 4 3 (by decide) (by decide) (by decide)⟩

/-- Claim C1 as worded fails: with height 2^31 on one worker (`H ≥ n ≥ 1`) the `int`
slot `heightScale[0]` holds -2^31, not `H / n + H % n = 2^31`, and the row counts
do not sum to `H`. -/
theorem partition_row_counts_overflow :
    (1 : Nat) ≤ 2147483648
      ∧ heightScale 1 2147483648 1 0 = -2147483648
      ∧ heightScale 1 2147483648 1 0 ≠ ((2147483648 / 1 + 2147483648 % 1 : Nat) : Int)
      ∧ (partitionTables 1 2147483648 1).heightScale.sum ≠ ((2147483648 : Nat) : Int) := by
  decide

/-! ## The partitioning policy -/

theorem rowStart_zero (H n : Nat) : rowStart H n 0 = 0 := by
  simp [rowStart]

theorem rowStart_succ (H n i : Nat) : rowStart H n (i + 1) = rowStart H n i + rowCount H n i := by
  simp [rowStart, List.range_succ]

theorem rowStart_succ_eq (H n i : Nat) :
    rowStart H n (i + 1) = H / n + H % n + i * (H / n) := by
  induction i with
  | zero => simp [rowStart_succ, rowStart_zero, rowCount]
  | succ i ih =>
    rw [rowStart_succ, ih]
    simp only [rowCount, Nat.succ_ne_zero, if_false]
    ring

theorem first_rows_le (H n : Nat) (hn : 1 ≤ n) : H / n + H % n ≤ H := by
  have h := Nat.div_add_mod H n
  have h2 : H / n ≤ n * (H / n) := Nat.le_mul_of_pos_left _ hn
  omega

theorem rowStart_add_rowCount_le (H n i : Nat) (hi : i < n) :
    rowStart H n i + rowCount H n i ≤ H := by
  rw [← rowStart_succ, rowStart_succ_eq]
  have h := Nat.div_add_mod H n
  have h2 : (i + 1) * (H / n) ≤ n * (H / n) := Nat.mul_le_mul_right _ hi
  have h3 : (i + 1) * (H / n) = i * (H / n) + H / n := by ring
  omega

theorem rowStart_last (H n : Nat) (hn : 1 ≤ n) : rowStart H n n = H := by
  obtain ⟨m, rfl⟩ : ∃ m, n = m + 1 := ⟨n - 1, by omega⟩
  rw [rowStart_succ_eq]
  have h := Nat.div_add_mod H (m + 1)
  have h3 : (m + 1) * (H / (m + 1)) = m * (H / (m + 1)) + H / (m + 1) := by ring
  omega

theorem rowStart_mono (H n i j : Nat) (hij : i ≤ j) : rowStart H n i ≤ rowStart H n j := by
  induction j with
  | zero =>
    have : i = 0 := by omega
    subst this
    exact le_refl _
  | succ j ih =>
    rcases Nat.lt_or_ge i (j + 1) with h | h
    · have := ih (by omega)
      rw [rowStart_succ]
      omega
    · have : i = j + 1 := by omega
      subst this
      exact le_refl _

theorem rowCount_pos (H n i : Nat) (hn : 1 ≤ n) (hnH : n ≤ H) : 1 ≤ rowCount H n i := by
  have h : 1 ≤ H / n := (Nat.one_le_div_iff (by omega)).2 hnH
  unfold rowCount
  split <;> omega

/-! ## The tables under the bound `W * H < 2^31` -/

theorem heightScale_eq (W H n i : Nat) (hn : 1 ≤ n) (hi : i < n) (hH : H < 2147483648) :
    heightScale W H n i = (rowCount H n i : Int) := by
  have h1 := first_rows_le H n hn
  cases i with
  | zero => rw [heightScale_zero, firstRows_eq H n (by omega)]; simp [rowCount]
  | succ j => rw [heightScale_succ W H n j hi, otherRows_eq H n (by omega)]; simp [rowCount]

theorem pixelCount_firstRows (W H n : Nat) (hn : 1 ≤ n) (hWH : W * H < 2147483648) :
    pixelCount (firstRows H n) W = (((H / n + H % n) * W : Nat) : Int) := by
  rcases Nat.eq_zero_or_pos W with h0 | hW
  · subst h0; simp [pixelCount_width_zero]
  · have h1 := first_rows_le H n hn
    have h2 : H ≤ W * H := Nat.le_mul_of_pos_left _ hW
    have h3 : (H / n + H % n) * W ≤ H * W := Nat.mul_le_mul_right _ h1
    rw [firstRows_eq H n (by omega), pixelCount_eq _ _ (by rw [Nat.mul_comm H W] at h3; omega)]

theorem pixelCount_otherRows (W H n : Nat) (hn : 1 ≤ n) (hWH : W * H < 2147483648) :
    pixelCount (otherRows H n) W = (((H / n) * W : Nat) : Int) := by
  rcases Nat.eq_zero_or_pos W with h0 | hW
  · subst h0; simp [pixelCount_width_zero]
  · have h1 := first_rows_le H n hn
    have h2 : H ≤ W * H := Nat.le_mul_of_pos_left _ hW
    have h3 : (H / n) * W ≤ H * W := Nat.mul_le_mul_right _ (by omega)
    rw [otherRows_eq H n (by omega), pixelCount_eq _ _ (by rw [Nat.mul_comm H W] at h3; omega)]

theorem sendCounts_eq (W H n i : Nat) (hn : 1 ≤ n) (hi : i < n) (hWH : W * H < 2147483648) :
    sendCounts W H n i = ((rowCount H n i * W : Nat) : Int) := by
  cases i with
  | zero => rw [sendCounts_zero, pixelCount_firstRows W H n hn hWH]; simp [rowCount]
  | succ j => rw [sendCounts_succ W H n j hi, pixelCount_otherRows W H n hn hWH]; simp [rowCount]

theorem displs_eq (W H n i : Nat) (hn : 1 ≤ n) (hi : i < n) (hWH : W * H < 2147483648) :
    displs W H n i = ((rowStart H n i * W : Nat) : Int) := by
  cases i with
  | zero => rw [displs_zero, rowStart_zero]; simp
  | succ j =>
    rw [displs_succ W H n j hi, pixelCount_firstRows W H n hn hWH,
      pixelCount_otherRows W H n hn hWH, rowStart_succ_eq]
    have hle : rowStart H n (j + 1) ≤ H := by
      have := rowStart_mono H n (j + 1) n (by omega)
      rw [rowStart_last H n hn] at this
      exact this
    rw [rowStart_succ_eq] at hle
    have h3 : (H / n + H % n + j * (H / n)) * W ≤ H * W := Nat.mul_le_mul_right _ hle
    have h4 : ((((H / n + H % n) * W : Nat) : Int) + (j : Int) * (((H / n) * W : Nat) : Int))
        = (((H / n + H % n + j * (H / n)) * W : Nat) : Int) := by
      push_cast; ring
    rw [h4, wrapInt_of_range _ (by omega) (by rw [Nat.mul_comm H W] at h3; omega)]

theorem rowStart_cover (W H n p k : Nat) (hp : p < rowStart H n k * W) :
    ∃ i, i < k ∧ rowStart H n i * W ≤ p ∧ p < (rowStart H n i + rowCount H n i) * W := by
  induction k with
  | zero => simp [rowStart_zero] at hp
  | succ k ih =>
    rcases Nat.lt_or_ge p (rowStart H n k * W) with h | h
    · obtain ⟨i, hi, h1, h2⟩ := ih h
      exact ⟨i, by omega, h1, h2⟩
    · exact ⟨k, by omega, h, by rw [← rowStart_succ]; exact hp⟩

/-- Claim C2: for every width `W`, height `H` and worker count `n` with `H ≥ n ≥ 1` and
`W * H < 2^31`, the tables computed in `main` satisfy `displs[0] = 0`,
`sendCounts[i] = heightScale[i] * W`, `displs[i+1] = displs[i] + sendCounts[i]` and
`displs[n-1] + sendCounts[n-1] = W * H`; the pixel ranges
`[displs[i], displs[i] + sendCounts[i])` are ordered by worker index and pairwise
disjoint, lie inside the raster, start on a row boundary, and every one of the
`W * H` pixels lies in one of them. -/
theorem scatter_tables (W H n : Nat) (hn : 1 ≤ n) (hnH : n ≤ H) (hWH : W * H < 2147483648) :
    displs W H n 0 = 0
      ∧ (∀ i, i < n → sendCounts W H n i = heightScale W H n i * (W : Int))
      ∧ (∀ i, i + 1 < n → displs W H n (i + 1) = displs W H n i + sendCounts W H n i)
      ∧ displs W H n (n - 1) + sendCounts W H n (n - 1) = ((W * H : Nat) : Int)
      ∧ (∀ i j, i < j → j < n →
          displs W H n i + sendCounts W H n i ≤ displs W H n j)
      ∧ (∀ i, i < n → 0 ≤ displs W H n i ∧ 0 ≤ sendCounts W H n i
          ∧ displs W H n i + sendCounts W H n i ≤ ((W * H : Nat) : Int))
      ∧ (∀ i, i < n → ∃ r : Nat, displs W H n i = ((r * W : Nat) : Int))
      ∧ (∀ p : Nat, p < W * H → ∃ i, i < n ∧ displs W H n i ≤ (p : Int)
          ∧ (p : Int) < displs W H n i + sendCounts W H n i) := by
  have _ := hnH
  have hend : ∀ i, i < n → displs W H n i + sendCounts W H n i
      = ((rowStart H n (i + 1) * W : Nat) : Int) := by
    intro i hi
    rw [displs_eq W H n i hn hi hWH, sendCounts_eq W H n i hn hi hWH, rowStart_succ]
    push_cast; ring
  refine ⟨displs_zero W H n, ?_, ?_, ?_, ?_, ?_, ?_, ?_⟩
  · intro i hi
    rcases Nat.eq_zero_or_pos W with h0 | hW
    · subst h0
      rw [sendCounts_eq 0 H n i hn hi hWH]; simp
    · have h2 : H ≤ W * H := Nat.le_mul_of_pos_left _ hW
      rw [sendCounts_eq W H n i hn hi hWH, heightScale_eq W H n i hn hi (by omega)]
      push_cast; ring
  · intro i hi
    rw [hend i (by omega), displs_eq W H n (i + 1) hn hi hWH]
  · rw [hend (n - 1) (by omega)]
    have h1 : n - 1 + 1 = n := by omega
    rw [h1, rowStart_last H n hn, Nat.mul_comm]
  · intro i j hij hj
    rw [hend i (by omega), displs_eq W H n j hn hj hWH]
    exact_mod_cast Nat.mul_le_mul_right W (rowStart_mono H n (i + 1) j (by omega))
  · intro i hi
    refine ⟨?_, ?_, ?_⟩
    · rw [displs_eq W H n i hn hi hWH]; exact Int.natCast_nonneg _
    · rw [sendCounts_eq W H n i hn hi hWH]; exact Int.natCast_nonneg _
    · rw [hend i hi]
      have h := rowStart_mono H n (i + 1) n (by omega)
      rw [rowStart_last H n hn] at h
      have h2 := Nat.mul_le_mul_right W h
      rw [Nat.mul_comm H W] at h2
      exact_mod_cast h2
  · intro i hi
    exact ⟨rowStart H n i, displs_eq W H n i hn hi hWH⟩
  · intro p hp
    have hp2 : p < rowStart H n n * W := by
      rw [rowStart_last H n hn, Nat.mul_comm]; exact hp
    obtain ⟨i, hi, h1, h2⟩ := rowStart_cover W H n p n hp2
    refine ⟨i, hi, ?_, ?_⟩
    · rw [displs_eq W H n i hn hi hWH]; exact_mod_cast h1
    · rw [hend i hi, rowStart_succ]; exact_mod_cast h2

/-- Witness of `scatter_tables`: a 3 by 4 raster on 3 workers. -/
theorem scatter_tables_witness :
    (1 ≤ 3 ∧ 3 ≤ 4 ∧ 3 * 4 < 2147483648)
      ∧ (partitionTables 3 4 3).displs = [0, 6, 9]
      ∧ (partitionTables 3 4 3).sendCounts = [6, 3, 3]
      ∧ (partitionTables 3 4 3).heightScale = [2, 1, 1]
      ∧ (displs 3 4 3 0 = 0
        ∧ (∀ i, i < 3 → sendCounts 3 4 3 i = heightScale 3 4 3 i * ((3 : Nat) : Int))
        ∧ (∀ i, i + 1 < 3 → displs 3 4 3 (i + 1) = displs 3 4 3 i + sendCounts 3 4 3 i)
        ∧ displs 3 4 3 (3 - 1) + sendCounts 3 4 3 (3 - 1) = ((3 * 4 : Nat) : Int)
        ∧ (∀ i j, i < j → j < 3 → displs 3 4 3 i + sendCounts 3 4 3 i ≤ displs 3 4 3 j)
        ∧ (∀ i, i < 3 → 0 ≤ displs 3 4 3 i ∧ 0 ≤ sendCounts 3 4 3 i
            ∧ displs 3 4 3 i + sendCounts 3 4 3 i ≤ ((3 * 4 : Nat) : Int))
        ∧ (∀ i, i < 3 → ∃ r : Nat, displs 3 4 3 i = ((r * 3 : Nat) : Int))
        ∧ (∀ p : Nat, p < 3 * 4 → ∃ i, i < 3 ∧ displs 3 4 3 i ≤ (p : Int)
            ∧ (p : Int) < displs 3 4 3 i + sendCounts 3 4 3 i)) :=
  ⟨by decide, by decide, by decide, by decide,
    scatter_tables 3 4 3 (by decide) (by decide) (by decide)⟩

theorem otherRows_of_lt (H n : Nat) (h : H < n) : otherRows H n = 0 := by
  simp [otherRows, Nat.div_eq_of_lt h, toUInt, toInt]

theorem firstRows_of_lt (H n : Nat) (h : H < n) (hn : n < 2147483648) :
    firstRows H n = (H : Int) := by
  rw [firstRows_eq H n (by rw [Nat.div_eq_of_lt h, Nat.mod_eq_of_lt h]; omega),
    Nat.div_eq_of_lt h, Nat.mod_eq_of_lt h]
  simp

theorem displs_contiguous_of_lt (W H n : Nat) (h : H < n) (i : Nat) (hi : i + 1 < n) :
    displs W H n (i + 1) = displs W H n i + sendCounts W H n i := by
  rw [displs_succ W H n i hi, otherRows_of_lt H n h, pixelCount_rows_zero]
  cases i with
  | zero => rw [displs_zero, sendCounts_zero]; simp [pixelCount_wrap]
  | succ j =>
    rw [displs_succ W H n j (by omega), sendCounts_succ W H n j (by omega),
      otherRows_of_lt H n h, pixelCount_rows_zero]
    simp

/-- Claim C10, with the bounds that the unbounded wording lacks: the partition
computation has no failure path; for every worker count `n ≥ 1` it produces `n` row
counts, `n` element counts and `n` offsets; the row counts sum to `H` whenever
`H / n + H % n < 2^31`, and the offsets are contiguous whenever `W * H < 2^31`; when
`n > H` (with `n` an `int`) worker 0 is assigned all `H` rows and every other worker
zero rows and `sendCounts[i] = 0`, the row counts sum to `H` and the offsets are
contiguous, with no further bound. -/
theorem partition_never_fails (W H n : Nat) (hn : 1 ≤ n) :
    ((partitionTables W H n).heightScale.length = n
        ∧ (partitionTables W H n).sendCounts.length = n
        ∧ (partitionTables W H n).displs.length = n)
      ∧ (H / n + H % n < 2147483648 → (partitionTables W H n).heightScale.sum = (H : Int))
      ∧ (W * H < 2147483648 → displs W H n 0 = 0
          ∧ ∀ i, i + 1 < n → displs W H n (i + 1) = displs W H n i + sendCounts W H n i)
      ∧ (H < n → n < 2147483648 →
          heightScale W H n 0 = (H : Int)
          ∧ (∀ i, 1 ≤ i → i < n → heightScale W H n i = 0 ∧ sendCounts W H n i = 0)
          ∧ (partitionTables W H n).heightScale.sum = (H : Int)
          ∧ displs W H n 0 = 0
          ∧ ∀ i, i + 1 < n → displs W H n (i + 1) = displs W H n i + sendCounts W H n i) := by
  refine ⟨tables_length W H n hn, heightScale_sum W H n hn, ?_, ?_⟩
  · intro hWH
    refine ⟨displs_zero W H n, ?_⟩
    intro i hi
    rw [displs_eq W H n (i + 1) hn hi hWH, displs_eq W H n i hn (by omega) hWH,
      sendCounts_eq W H n i hn (by omega) hWH, rowStart_succ]
    push_cast; ring
  · intro hlt hn31
    refine ⟨?_, ?_, ?_, displs_zero W H n, displs_contiguous_of_lt W H n hlt⟩
    · rw [heightScale_zero, firstRows_of_lt H n hlt hn31]
    · intro i hi hin
      obtain ⟨j, rfl⟩ : ∃ j, i = j + 1 := ⟨i - 1, by omega⟩
      rw [heightScale_succ W H n j hin, sendCounts_succ W H n j hin, otherRows_of_lt H n hlt,
        pixelCount_rows_zero]
      exact ⟨rfl, rfl⟩
    · apply heightScale_sum W H n hn
      rw [Nat.div_eq_of_lt hlt, Nat.mod_eq_of_lt hlt]
      omega

/-- Witness of `partition_never_fails`: 2 rows of width 3 on 5 workers. -/
theorem partition_never_fails_witness :
    (partitionTables 3 2 5).heightScale = [2, 0, 0, 0, 0]
      ∧ (partitionTables 3 2 5).sendCounts = [6, 0, 0, 0, 0]
      ∧ (partitionTables 3 2 5).displs = [0, 6, 6, 6, 6]
      ∧ (((partitionTables 3 2 5).heightScale.length = 5
          ∧ (partitionTables 3 2 5).sendCounts.length = 5
          ∧ (partitionTables 3 2 5).displs.length = 5)
        ∧ (2 / 5 + 2 % 5 < 2147483648 →
            (partitionTables 3 2 5).heightScale.sum = ((2 : Nat) : Int))
        ∧ (3 * 2 < 2147483648 → displs 3 2 5 0 = 0
            ∧ ∀ i, i + 1 < 5 → displs 3 2 5 (i + 1) = displs 3 2 5 i + sendCounts 3 2 5 i)
        ∧ (2 < 5 → 5 < 2147483648 →
            heightScale 3 2 5 0 = ((2 : Nat) : Int)
            ∧ (∀ i, 1 ≤ i → i < 5 → heightScale 3 2 5 i = 0 ∧ sendCounts 3 2 5 i = 0)
            ∧ (partitionTables 3 2 5).heightScale.sum = ((2 : Nat) : Int)
            ∧ displs 3 2 5 0 = 0
            ∧ ∀ i, i + 1 < 5 →
                displs 3 2 5 (i + 1) = displs 3 2 5 i + sendCounts 3 2 5 i)) :=
  ⟨by decide, by decide, by decide, partition_never_fails 3 2 5 (by decide)⟩

/-- Claim C10 as worded fails for heights that do not fit an `int`: height 2^32 - 1 on two
workers gives the row counts -2^31 and 2^31 - 1, which sum to -1, not to `H`; and for
pixel counts that do not fit an `int` the offsets are not contiguous: a raster of 65536
by 49152 pixels on three workers has `displs[1] + sendCounts[1] = 2^31` but
`displs[2] = -2^31`. -/
theorem partition_never_fails_overflow :
    ((partitionTables 1 4294967295 2).heightScale = [-2147483648, 2147483647]
        ∧ (partitionTables 1 4294967295 2).heightScale.sum ≠ ((4294967295 : Nat) : Int))
      ∧ (displs 65536 49152 3 1 + sendCounts 65536 49152 3 1 = 2147483648
        ∧ displs 65536 49152 3 2 = -2147483648
        ∧ displs 65536 49152 3 2 ≠ displs 65536 49152 3 1 + sendCounts 65536 49152 3 1) := by
  decide

/-! ## The cells written by `applyKernel` -/

theorem writeCell_fold (out : Nat → Nat → Nat) (c : Nat → Nat) (y n y1 x1 : Nat) :
    (List.range n).foldl (fun o x => writeCell o y x (c x)) out y1 x1
      = if y1 = y ∧ x1 < n then c x1 else out y1 x1 := by
  induction n with
  | zero => simp
  | succ n ih =>
    rw [List.range_succ, List.foldl_append]
    simp only [List.foldl_cons, List.foldl_nil, writeCell]
    rw [ih]
    by_cases h1 : y1 = y
    · by_cases h2 : x1 = n
      · subst h2; simp [h1]
      · by_cases h3 : x1 < n
        · simp [h1, h2, h3, Nat.lt_succ_of_lt h3]
        · have h4 : ¬ x1 < n + 1 := by omega
          simp [h1, h2, h3, h4]
    · simp [h1]

theorem applyKernelRow_apply (out inp : Nat → Nat → Nat) (W H : Nat) (k : Nat → Int) (D : Nat)
    (f : KernelFactor) (y y1 x1 : Nat) :
    applyKernelRow out inp W H k D f y y1 x1
      = if y1 = y ∧ x1 < W then cellValue inp W H k D f y x1 else out y1 x1 :=
  writeCell_fold out (fun x => cellValue inp W H k D f y x) y W y1 x1

theorem applyKernelRow_fold (out inp : Nat → Nat → Nat) (W H : Nat) (k : Nat → Int) (D : Nat)
    (f : KernelFactor) (m y1 x1 : Nat) :
    (List.range m).foldl (fun o y => applyKernelRow o inp W H k D f y) out y1 x1
      = if y1 < m ∧ x1 < W then cellValue inp W H k D f y1 x1 else out y1 x1 := by
  induction m with
  | zero => simp
  | succ m ih =>
    rw [List.range_succ, List.foldl_append]
    simp only [List.foldl_cons, List.foldl_nil]
    rw [applyKernelRow_apply, ih]
    by_cases h1 : y1 = m
    · subst h1; simp
    · by_cases h3 : y1 < m
      · simp [h1, h3, Nat.lt_succ_of_lt h3]
      · have h4 : ¬ y1 < m + 1 := by omega
        simp [h1, h3, h4]

/-- The array after `applyKernel`: every cell inside `width × height` holds its
`cellValue`, every other cell is untouched. -/
theorem applyKernel_apply (out inp : Nat → Nat → Nat) (W H : Nat) (k : Nat → Int) (D : Nat)
    (f : KernelFactor) (y x : Nat) :
    applyKernel out inp W H k D f y x
      = if y < H ∧ x < W then cellValue inp W H k D f y x else out y x :=
  applyKernelRow_fold out inp W H k D f H y x

theorem applyKernel_cell (out inp : Nat → Nat → Nat) (W H : Nat) (k : Nat → Int) (D : Nat)
    (f : KernelFactor) (y x : Nat) (hy : y < H) (hx : x < W) :
    applyKernel out inp W H k D f y x = cellValue inp W H k D f y x := by
  rw [applyKernel_apply, if_pos ⟨hy, hx⟩]

/-! ## Saturation -/

theorem storeSample_eq_clamp (v : Int) : (storeSample v : Int) = clamp255 v := by
  unfold storeSample clamp255 toUChar
  split
  · split
    · have h : (255 : Int) % 256 = 255 := by decide
      rw [h, min_eq_left (by omega)]
      simp
    · rw [min_eq_right (by omega), max_eq_right (by omega)]
      omega
  · rw [max_eq_left (le_trans (min_le_right _ _) (by omega))]
    simp

theorem storeSample_lt (v : Int) : storeSample v < 256 := by
  have h := storeSample_eq_clamp v
  have h1 : clamp255 v ≤ 255 := by
    unfold clamp255
    exact max_le (by omega) (min_le_left _ _)
  omega

theorem writeRows_fold (out : Nat → Nat → Nat) (c : Nat → Nat → Nat) (W m y1 x1 : Nat) :
    (List.range m).foldl
        (fun o y => (List.range W).foldl (fun o x => writeCell o y x (c y x)) o) out y1 x1
      = if y1 < m ∧ x1 < W then c y1 x1 else out y1 x1 := by
  induction m with
  | zero => simp
  | succ m ih =>
    rw [List.range_succ, List.foldl_append]
    simp only [List.foldl_cons, List.foldl_nil]
    rw [writeCell_fold _ (fun x => c m x) m W y1 x1, ih]
    by_cases h1 : y1 = m
    · subst h1; simp
    · by_cases h3 : y1 < m
      · simp [h1, h3, Nat.lt_succ_of_lt h3]
      · have h4 : ¬ y1 < m + 1 := by omega
        simp [h1, h3, h4]

theorem applyKernelWith_cell (scale : Int → Int) (out inp : Nat → Nat → Nat) (W H : Nat)
    (k : Nat → Int) (D : Nat) (y x : Nat) (hy : y < H) (hx : x < W) :
    applyKernelWith scale out inp W H k D y x = cellValueWith scale inp W H k D y x := by
  unfold applyKernelWith applyKernelRowWith
  rw [writeRows_fold out (fun y x => cellValueWith scale inp W H k D y x) W H y x,
    if_pos ⟨hy, hx⟩]

theorem storeSample_cases (v : Int) :
    (255 < v → storeSample v = 255) ∧ (v ≤ 0 → storeSample v = 0)
      ∧ (0 < v → v ≤ 255 → (storeSample v : Int) = v) := by
  have hc := storeSample_eq_clamp v
  refine ⟨?_, ?_, ?_⟩
  · intro h
    have : clamp255 v = 255 := by
      unfold clamp255; rw [min_eq_left (by omega)]; simp
    omega
  · intro h
    have : clamp255 v = 0 := by
      unfold clamp255; rw [max_eq_left (le_trans (min_le_right _ _) h)]
    omega
  · intro h1 h2
    have : clamp255 v = v := by
      unfold clamp255; rw [min_eq_right h2, max_eq_right (by omega)]
    omega

/-- Claim C4: for every cell `(x, y)` processed by `applyKernel`, with `v` the `int`
aggregate after the scaling of line 80: if `v > 255` the stored sample is 255, if `v ≤ 0`
it is 0, otherwise it is `v` itself; an out-of-range `v` is saturated, not reduced modulo
256 (500 stores 255, not 244; -50 stores 0, not 206).  The `float` scaling is any map
`scale` of the `int` aggregate, so the statement holds whatever line 80 rounds to; for
the catalogue factors 1.0 and 1/256 on an aggregate `S` of magnitude at most 2^24, where
the scaling is exact, `v` is `S` and `S / 256` truncated toward zero. -/
theorem applyKernel_saturates (scale : Int → Int) (out inp : Nat → Nat → Nat) (W H : Nat)
    (k : Nat → Int) (D : Nat) (y x : Nat) (hy : y < H) (hx : x < W) :
    ((255 < scale (kernelSum inp W H k D y x) →
          applyKernelWith scale out inp W H k D y x = 255)
        ∧ (scale (kernelSum inp W H k D y x) ≤ 0 →
          applyKernelWith scale out inp W H k D y x = 0)
        ∧ (0 < scale (kernelSum inp W H k D y x) → scale (kernelSum inp W H k D y x) ≤ 255 →
          (applyKernelWith scale out inp W H k D y x : Int) = scale (kernelSum inp W H k D y x))
        ∧ (255 < scale (kernelSum inp W H k D y x) →
            toUChar (scale (kernelSum inp W H k D y x)) ≠ 255 →
          applyKernelWith scale out inp W H k D y x
            ≠ toUChar (scale (kernelSum inp W H k D y x)))
        ∧ (scale (kernelSum inp W H k D y x) < 0 →
            toUChar (scale (kernelSum inp W H k D y x)) ≠ 0 →
          applyKernelWith scale out inp W H k D y x
            ≠ toUChar (scale (kernelSum inp W H k D y x))))
      ∧ (|kernelSum inp W H k D y x| ≤ 16777216 →
          (255 < kernelSum inp W H k D y x → applyKernel out inp W H k D ⟨1, 1⟩ y x = 255)
          ∧ (kernelSum inp W H k D y x ≤ 0 → applyKernel out inp W H k D ⟨1, 1⟩ y x = 0)
          ∧ (0 < kernelSum inp W H k D y x → kernelSum inp W H k D y x ≤ 255 →
            (applyKernel out inp W H k D ⟨1, 1⟩ y x : Int) = kernelSum inp W H k D y x)
          ∧ (255 < Int.tdiv (kernelSum inp W H k D y x) 256 →
            applyKernel out inp W H k D ⟨1, 256⟩ y x = 255)
          ∧ (Int.tdiv (kernelSum inp W H k D y x) 256 ≤ 0 →
            applyKernel out inp W H k D ⟨1, 256⟩ y x = 0)
          ∧ (0 < Int.tdiv (kernelSum inp W H k D y x) 256 →
              Int.tdiv (kernelSum inp W H k D y x) 256 ≤ 255 →
            (applyKernel out inp W H k D ⟨1, 256⟩ y x : Int)
              = Int.tdiv (kernelSum inp W H k D y x) 256))
      ∧ (storeSample 500 = 255 ∧ toUChar 500 = 244)
      ∧ (storeSample (-50) = 0 ∧ toUChar (-50) = 206) := by
  refine ⟨?_, ?_, by decide, by decide⟩
  · rw [applyKernelWith_cell scale out inp W H k D y x hy hx]
    unfold cellValueWith
    generalize scale (kernelSum inp W H k D y x) = v
    obtain ⟨c1, c2, c3⟩ := storeSample_cases v
    refine ⟨c1, c2, c3, ?_, ?_⟩
    · intro h1 h2 h3
      apply h2
      rw [← h3, c1 h1]
    · intro h1 h2 h3
      apply h2
      rw [← h3, c2 (by omega)]
  · intro _
    have e1 : applyKernel out inp W H k D ⟨1, 1⟩ y x
        = storeSample (kernelSum inp W H k D y x) := by
      rw [applyKernel_cell out inp W H k D ⟨1, 1⟩ y x hy hx]
      unfold cellValue scaleAggregate
      simp
    have e2 : applyKernel out inp W H k D ⟨1, 256⟩ y x
        = storeSample (Int.tdiv (kernelSum inp W H k D y x) 256) := by
      rw [applyKernel_cell out inp W H k D ⟨1, 256⟩ y x hy hx]
      unfold cellValue scaleAggregate
      simp
    rw [e1, e2]
    obtain ⟨c1, c2, c3⟩ := storeSample_cases (kernelSum inp W H k D y x)
    obtain ⟨d1, d2, d3⟩ := storeSample_cases (Int.tdiv (kernelSum inp W H k D y x) 256)
    exact ⟨c1, c2, c3, d1, d2, d3⟩

/-- Witness of `applyKernel_saturates`: a 1 by 1 plane holding 100 under the 1 by 1
kernel `{5}` and the factor 1.0 has the aggregate 500 and stores 255; one holding 50
under the kernel `{-1}` has the aggregate -50 and stores 0. -/
theorem applyKernel_saturates_witness :
    (kernelSum (fun _ _ => 100) 1 1 (kernelPtr [5]) 1 0 0 = 500
        ∧ applyKernelWith (scaleAggregate ⟨1, 1⟩) (fun _ _ => 0) (fun _ _ => 100) 1 1
            (kernelPtr [5]) 1 0 0 = 255
        ∧ applyKernel (fun _ _ => 0) (fun _ _ => 100) 1 1 (kernelPtr [5]) 1 ⟨1, 1⟩ 0 0 = 255)
      ∧ (kernelSum (fun _ _ => 50) 1 1 (kernelPtr [-1]) 1 0 0 = -50
        ∧ applyKernelWith (scaleAggregate ⟨1, 1⟩) (fun _ _ => 0) (fun _ _ => 50) 1 1
            (kernelPtr [-1]) 1 0 0 = 0
        ∧ applyKernel (fun _ _ => 0) (fun _ _ => 50) 1 1 (kernelPtr [-1]) 1 ⟨1, 1⟩ 0 0 = 0) :=
  ⟨⟨by decide,
    (applyKernel_saturates (scaleAggregate ⟨1, 1⟩) (fun _ _ => 0) (fun _ _ => 100) 1 1
      (kernelPtr [5]) 1 0 0 (by decide) (by decide)).1.1 (by decide),
    ((applyKernel_saturates (scaleAggregate ⟨1, 1⟩) (fun _ _ => 0) (fun _ _ => 100) 1 1
      (kernelPtr [5]) 1 0 0 (by decide) (by decide)).2.1 (by decide)).1 (by decide)⟩,
   ⟨by decide,
    (applyKernel_saturates (scaleAggregate ⟨1, 1⟩) (fun _ _ => 0) (fun _ _ => 50) 1 1
      (kernelPtr [-1]) 1 0 0 (by decide) (by decide)).1.2.1 (by decide),
    ((applyKernel_saturates (scaleAggregate ⟨1, 1⟩) (fun _ _ => 0) (fun _ _ => 50) 1 1
      (kernelPtr [-1]) 1 0 0 (by decide) (by decide)).2.1 (by decide)).2.1 (by decide)⟩⟩

/-! ## `applyKernel` reads only the cells of the plane -/

theorem toInt_le (u : Nat) : toInt u ≤ (u : Int) := by
  unfold toInt
  split <;> omega

theorem kernelTerm_congr (inp1 inp2 : Nat → Nat → Nat) (W H : Nat) (k : Nat → Int) (D : Nat)
    (h : ∀ y x, y < H → x < W → inp1 y x = inp2 y x) (y x ky kx : Nat) (agg : Int) :
    kernelTerm inp1 W H k D y x ky kx agg = kernelTerm inp2 W H k D y x ky kx agg := by
  unfold kernelTerm
  simp only
  split
  · next hc =>
    obtain ⟨h1, h2, h3, h4⟩ := hc
    have hW := toInt_le W
    have hH := toInt_le H
    rw [h _ _ (by omega) (by omega)]
  · rfl

theorem kernelSum_congr (inp1 inp2 : Nat → Nat → Nat) (W H : Nat) (k : Nat → Int) (D : Nat)
    (h : ∀ y x, y < H → x < W → inp1 y x = inp2 y x) (y x : Nat) :
    kernelSum inp1 W H k D y x = kernelSum inp2 W H k D y x := by
  unfold kernelSum kernelRow
  have hf : (fun (ky : Nat) (agg : Int) (kx : Nat) => kernelTerm inp1 W H k D y x ky kx agg)
      = (fun (ky : Nat) (agg : Int) (kx : Nat) => kernelTerm inp2 W H k D y x ky kx agg) := by
    funext ky agg kx
    exact kernelTerm_congr inp1 inp2 W H k D h y x ky kx agg
  have hg : (fun (agg : Int) (ky : Nat) => List.foldl
        (fun a kx => kernelTerm inp1 W H k D y x ky kx a) agg (List.range D))
      = (fun (agg : Int) (ky : Nat) => List.foldl
        (fun a kx => kernelTerm inp2 W H k D y x ky kx a) agg (List.range D)) := by
    funext agg ky
    exact congrArg (fun g => List.foldl (g ky) agg (List.range D)) hf
  rw [hg]

theorem cellValue_congr (inp1 inp2 : Nat → Nat → Nat) (W H : Nat) (k : Nat → Int) (D : Nat)
    (f : KernelFactor) (h : ∀ y x, y < H → x < W → inp1 y x = inp2 y x) (y x : Nat) :
    cellValue inp1 W H k D f y x = cellValue inp2 W H k D f y x := by
  unfold cellValue
  rw [kernelSum_congr inp1 inp2 W H k D h y x]

theorem passes_congr (W H : Nat) (k : Nat → Int) (D : Nat) (f : KernelFactor) (n : Nat) :
    ∀ (p1 p2 : Nat → Nat → Nat), (∀ y x, y < H → x < W → p1 y x = p2 y x) →
      ∀ y x, y < H → x < W → passes W H k D f n p1 y x = passes W H k D f n p2 y x := by
  induction n with
  | zero => intro p1 p2 h y x hy hx; exact h y x hy hx
  | succ n ih =>
    intro p1 p2 h y x hy hx
    simp only [passes]
    apply ih _ _ _ y x hy hx
    intro y1 x1 hy1 hx1
    unfold singlePass
    rw [applyKernel_cell _ _ _ _ _ _ _ _ _ hy1 hx1, applyKernel_cell _ _ _ _ _ _ _ _ _ hy1 hx1]
    exact cellValue_congr p1 p2 W H k D f h y1 x1

/-! ## The iteration loop -/

theorem iterationLoop_spec (k : Nat → Int) (D : Nat) (f : KernelFactor) (W H n : Nat) :
    ∀ (Q P : BmpImageChannel), Q.width = W → Q.height = H → P.width = W → P.height = H →
      (∀ y x, y < H → x < W →
          (iterationLoop k D f n (Q, P)).2.data y x = passes W H k D f n P.data y x)
        ∧ (iterationLoop k D f n (Q, P)).2.width = W
        ∧ (iterationLoop k D f n (Q, P)).2.height = H
        ∧ (iterationLoop k D f n (Q, P)).2.addr = (if n % 2 = 0 then P.addr else Q.addr)
        ∧ (iterationLoop k D f n (Q, P)).1.addr = (if n % 2 = 0 then Q.addr else P.addr) := by
  induction n with
  | zero =>
    intro Q P _ _ hPW hPH
    simp [iterationLoop, passes, hPW, hPH]
  | succ n ih =>
    intro Q P hQW hQH hPW hPH
    simp only [iterationLoop, iterationStep, swapImageChannel]
    obtain ⟨h1, h2, h3, h4, h5⟩ := ih P
      { Q with data := applyKernel Q.data P.data P.width P.height k D f } hPW hPH hQW hQH
    refine ⟨?_, h2, h3, ?_, ?_⟩
    · intro y x hy hx
      rw [h1 y x hy hx]
      simp only [passes]
      apply passes_congr W H k D f n _ _ _ y x hy hx
      intro y1 x1 hy1 hx1
      unfold singlePass
      rw [hPW, hPH, applyKernel_cell _ _ _ _ _ _ _ _ _ hy1 hx1,
        applyKernel_cell _ _ _ _ _ _ _ _ _ hy1 hx1]
    · rw [h4]
      rcases Nat.mod_two_eq_zero_or_one n with h | h
      · have : (n + 1) % 2 = 1 := by omega
        simp [h, this]
      · have : (n + 1) % 2 = 0 := by omega
        simp [h, this]
    · rw [h5]
      rcases Nat.mod_two_eq_zero_or_one n with h | h
      · have : (n + 1) % 2 = 1 := by omega
        simp [h, this]
      · have : (n + 1) % 2 = 0 := by omega
        simp [h, this]

/-- Claim C6: for every extracted plane `P`, kernel and iteration count `n`, after the
loop of `applyKernel` followed by `swapImageChannel` the buffer named `imageChannel`
holds, in every cell of the plane, the single pass applied `n` times in succession to
`P`, it keeps the plane's dimensions, the buffer that is freed is the other of the two
allocations, and for `n = 0` `imageChannel` is `P` unchanged. -/
theorem iterate_ping_pong (P : BmpImageChannel) (fresh : Nat) (hfresh : fresh ≠ P.addr)
    (k : Nat → Int) (D : Nat) (f : KernelFactor) (n : Nat) :
    (∀ y x, y < P.height → x < P.width →
        (iterate P fresh k D f n).2.data y x = passes P.width P.height k D f n P.data y x)
      ∧ (iterate P fresh k D f n).2.width = P.width
      ∧ (iterate P fresh k D f n).2.height = P.height
      ∧ (iterate P fresh k D f n).1.addr ≠ (iterate P fresh k D f n).2.addr
      ∧ (((iterate P fresh k D f n).2.addr = P.addr ∧ (iterate P fresh k D f n).1.addr = fresh)
          ∨ ((iterate P fresh k D f n).2.addr = fresh
            ∧ (iterate P fresh k D f n).1.addr = P.addr))
      ∧ (iterate P fresh k D f 0).2 = P := by
  obtain ⟨h1, h2, h3, h4, h5⟩ := iterationLoop_spec k D f P.width P.height n
    { addr := fresh, width := P.width, height := P.height, data := fun _ _ => 0 } P
    rfl rfl rfl rfl
  refine ⟨h1, h2, h3, ?_, ?_, rfl⟩
  · unfold iterate
    rw [h4, h5]
    split
    · exact hfresh
    · exact fun h => hfresh h.symm
  · unfold iterate
    rw [h4, h5]
    split
    · exact Or.inl ⟨rfl, rfl⟩
    · exact Or.inr ⟨rfl, rfl⟩

/-- Witness of `iterate_ping_pong`: two laplacian passes over the plane
`[10, 20, 30, 20, 10]`, with the second buffer at address 2. -/
theorem iterate_ping_pong_witness :
    (2 : Nat) ≠ rowPlane.addr
      ∧ ((∀ y x, y < rowPlane.height → x < rowPlane.width →
          (iterate rowPlane 2 (kernelPtr laplacian1Kernel) 3 laplacian1KernelFactor 2).2.data y x
            = passes rowPlane.width rowPlane.height (kernelPtr laplacian1Kernel) 3
                laplacian1KernelFactor 2 rowPlane.data y x)
        ∧ (iterate rowPlane 2 (kernelPtr laplacian1Kernel) 3 laplacian1KernelFactor 2).2.width
            = rowPlane.width
        ∧ (iterate rowPlane 2 (kernelPtr laplacian1Kernel) 3 laplacian1KernelFactor 2).2.height
            = rowPlane.height
        ∧ (iterate rowPlane 2 (kernelPtr laplacian1Kernel) 3 laplacian1KernelFactor 2).1.addr
            ≠ (iterate rowPlane 2 (kernelPtr laplacian1Kernel) 3 laplacian1KernelFactor 2).2.addr
        ∧ (((iterate rowPlane 2 (kernelPtr laplacian1Kernel) 3 laplacian1KernelFactor 2).2.addr
              = rowPlane.addr
            ∧ (iterate rowPlane 2 (kernelPtr laplacian1Kernel) 3 laplacian1KernelFactor 2).1.addr
              = 2)
          ∨ ((iterate rowPlane 2 (kernelPtr laplacian1Kernel) 3 laplacian1KernelFactor 2).2.addr
              = 2
            ∧ (iterate rowPlane 2 (kernelPtr laplacian1Kernel) 3 laplacian1KernelFactor 2).1.addr
              = rowPlane.addr))
        ∧ (iterate rowPlane 2 (kernelPtr laplacian1Kernel) 3 laplacian1KernelFactor 0).2
            = rowPlane) :=
  ⟨by decide,
    iterate_ping_pong rowPlane 2 (by decide) (kernelPtr laplacian1Kernel) 3
      laplacian1KernelFactor 2⟩

/-! ## The identity kernel -/

theorem toInt_natCast_of_lt (u : Nat) (h : u < 2147483648) : toInt u = (u : Int) :=
  toInt_of_lt u h

theorem cellValue_identity (inp : Nat → Nat → Nat) (W H y x : Nat) (hW : W < 2147483648)
    (hH : H < 2147483648) (hy : y < H) (hx : x < W) (h8 : inp y x < 256) :
    cellValue inp W H (kernelPtr [1]) 1 ⟨1, 1⟩ y x = inp y x := by
  have hterm : kernelTerm inp W H (kernelPtr [1]) 1 y x 0 0 0 = (inp y x : Int) := by
    unfold kernelTerm
    have e0 : toInt (toUInt ((1 : Nat) - 1 - (0 : Nat) : Int)) = 0 := by decide
    have e1 : (1 : Nat) / 2 = 0 := by decide
    have ey : toInt (toUInt ((y : Int) + (((0 : Nat) : Int) - ((0 : Nat) : Int)))) = (y : Int) := by
      simp only [Nat.cast_zero, sub_zero, add_zero]
      exact toInt_toUInt_natCast y (by omega)
    have ex : toInt (toUInt ((x : Int) + (((0 : Nat) : Int) - ((0 : Nat) : Int)))) = (x : Int) := by
      simp only [Nat.cast_zero, sub_zero, add_zero]
      exact toInt_toUInt_natCast x (by omega)
    simp only [e0, e1, ey, ex, toInt_of_lt W hW, toInt_of_lt H hH]
    have hc : (x : Int) ≥ 0 ∧ (x : Int) < (W : Int) ∧ (y : Int) ≥ 0 ∧ (y : Int) < (H : Int) :=
      ⟨by omega, by omega, by omega, by omega⟩
    rw [if_pos hc]
    have hk : kernelPtr [1] (toUInt (0 * ((1 : Nat) : Int) + 0)) = 1 := by decide
    rw [hk, Int.toNat_ofNat, Int.toNat_ofNat, mul_one, zero_add,
      wrapInt_of_range (inp y x : Int) (by omega) (by omega),
      wrapInt_of_range (inp y x : Int) (by omega) (by omega)]
  unfold cellValue kernelSum kernelRow
  have hr : List.range 1 = [0] := by decide
  simp only [hr, List.foldl_cons, List.foldl_nil]
  rw [hterm]
  unfold scaleAggregate
  simp only [mul_one, Nat.cast_one, Int.tdiv_one]
  have h := storeSample_eq_clamp (inp y x : Int)
  have hcl : clamp255 (inp y x : Int) = (inp y x : Int) := by
    unfold clamp255
    rw [min_eq_right (by omega), max_eq_right (by omega)]
  omega

theorem passes_identity (inp : Nat → Nat → Nat) (W H : Nat) (hW : W < 2147483648)
    (hH : H < 2147483648) (h8 : ∀ y x, y < H → x < W → inp y x < 256) (n : Nat) :
    ∀ y x, y < H → x < W → passes W H (kernelPtr [1]) 1 ⟨1, 1⟩ n inp y x = inp y x := by
  induction n with
  | zero => intro y x _ _; rfl
  | succ n ih =>
    intro y x hy hx
    simp only [passes]
    rw [← ih y x hy hx]
    apply passes_congr W H (kernelPtr [1]) 1 ⟨1, 1⟩ n _ _ _ y x hy hx
    intro y1 x1 hy1 hx1
    unfold singlePass
    rw [applyKernel_cell _ _ _ _ _ _ _ _ _ hy1 hx1]
    exact cellValue_identity inp W H y1 x1 hW hH hy1 hx1 (h8 y1 x1 hy1 hx1)

/-- Claim C5, with the bound that "any width and height" lacks: for every plane of 8-bit
samples whose width and height are below 2^31 and every iteration count `n`, the
iteration loop with the 1 by 1 kernel `{1}`, dimension 1 and factor 1.0 leaves every
cell of the plane equal to the input, and so does a single `applyKernel` pass. -/
theorem identity_kernel (P : BmpImageChannel) (fresh : Nat) (hW : P.width < 2147483648)
    (hH : P.height < 2147483648)
    (h8 : ∀ y x, y < P.height → x < P.width → P.data y x < 256) (n : Nat) :
    ∀ y x, y < P.height → x < P.width →
      (iterate P fresh (kernelPtr [1]) 1 ⟨1, 1⟩ n).2.data y x = P.data y x
        ∧ ∀ out : Nat → Nat → Nat,
          applyKernel out P.data P.width P.height (kernelPtr [1]) 1 ⟨1, 1⟩ y x = P.data y x := by
  intro y x hy hx
  obtain ⟨h1, _⟩ := iterationLoop_spec (kernelPtr [1]) 1 ⟨1, 1⟩ P.width P.height n
    { addr := fresh, width := P.width, height := P.height, data := fun _ _ => 0 } P
    rfl rfl rfl rfl
  refine ⟨?_, ?_⟩
  · unfold iterate
    rw [h1 y x hy hx]
    exact passes_identity P.data P.width P.height hW hH h8 n y x hy hx
  · intro out
    rw [applyKernel_cell _ _ _ _ _ _ _ _ _ hy hx]
    exact cellValue_identity P.data P.width P.height y x hW hH hy hx (h8 y x hy hx)

/-- Witness of `identity_kernel`: the plane `[10, 20, 30, 20, 10]` after 3 iterations of
the identity kernel is `[10, 20, 30, 20, 10]`. -/
theorem identity_kernel_witness :
    (List.range 5).map (fun x => rowPlane.data 0 x) = [10, 20, 30, 20, 10]
      ∧ ∀ y x, y < rowPlane.height → x < rowPlane.width →
        (iterate rowPlane 2 (kernelPtr [1]) 1 ⟨1, 1⟩ 3).2.data y x = rowPlane.data y x
          ∧ ∀ out : Nat → Nat → Nat,
            applyKernel out rowPlane.data rowPlane.width rowPlane.height (kernelPtr [1]) 1
              ⟨1, 1⟩ y x = rowPlane.data y x :=
  ⟨by decide,
    identity_kernel rowPlane 2 (by decide) (by decide)
      (by
        intro y x _ hx
        have hx5 : x < 5 := hx
        show [10, 20, 30, 20, 10].getD x 0 < 256
        interval_cases x <;> decide) 3⟩

/-- Claim C5 as worded ("any width and height") fails: on a plane of one row and 2^31
columns, every sample 7, one iteration of the identity kernel stores 0 in cell (0, 0),
because `(int)width` is negative and no source cell passes the bounds test. -/
theorem identity_kernel_wide_plane :
    widePlane.data 0 0 = 7
      ∧ (iterate widePlane 2 (kernelPtr [1]) 1 ⟨1, 1⟩ 1).2.data 0 0 = 0
      ∧ applyKernel (fun _ _ => 0) widePlane.data widePlane.width widePlane.height
          (kernelPtr [1]) 1 ⟨1, 1⟩ 0 0 = 0 := by
  have h : cellValue (fun _ _ => 7) 2147483648 1 (kernelPtr [1]) 1 ⟨1, 1⟩ 0 0 = 0 := by decide
  refine ⟨rfl, ?_, ?_⟩
  · simp only [iterate, iterationLoop, iterationStep, swapImageChannel, widePlane]
    rw [applyKernel_cell _ _ _ _ _ _ _ _ _ (by decide) (by decide)]
    exact h
  · simp only [widePlane]
    rw [applyKernel_cell _ _ _ _ _ _ _ _ _ (by decide) (by decide)]
    exact h

/-! ## The inversion program -/

theorem sendSlice_length (buf : Nat → Pixel) (offset count : Nat) :
    (sendSlice buf offset count).length = count := by
  simp [sendSlice]

theorem sendSlice_getD (buf : Nat → Pixel) (offset count j : Nat) (hj : j < count) :
    (sendSlice buf offset count).getD j ⟨0, 0, 0⟩ = buf (offset + j) := by
  simp [sendSlice, List.getD_eq_getElem?_getD, hj]

theorem workerProcess_reply (XSIZE yScale : Nat) (image : Nat → Pixel) (offset : Nat) :
    workerProcess XSIZE yScale (sendSlice image offset (yScale * XSIZE))
      = sendSlice (fun p => invertPixel (image p)) offset (yScale * XSIZE) := by
  unfold workerProcess
  simp only [sendSlice]
  apply List.map_congr_left
  intro j hj
  have hj2 : j < yScale * XSIZE := List.mem_range.1 hj
  have hj3 : j < XSIZE * yScale := by rw [Nat.mul_comm]; exact hj2
  have hl : ((List.range (yScale * XSIZE)).map (fun j => image (offset + j))).length
      = yScale * XSIZE := by simp
  simp only [invertColor, recvSlice, hl, Nat.zero_add, Nat.zero_le, true_and, hj2, hj3, if_true,
    Nat.sub_zero]
  congr 1
  simp [List.getD_eq_getElem?_getD, hj2]

theorem recvSlice_reply (img image : Nat → Pixel) (XSIZE yScale offset p : Nat) :
    recvSlice img offset (workerProcess XSIZE yScale (sendSlice image offset (yScale * XSIZE))) p
      = if offset ≤ p ∧ p < offset + yScale * XSIZE then invertPixel (image p) else img p := by
  rw [workerProcess_reply]
  unfold recvSlice
  rw [sendSlice_length]
  split
  · next h =>
    rw [sendSlice_getD _ _ _ _ (by omega)]
    have : offset + (p - offset) = p := by omega
    rw [this]
  · rfl

theorem receive_loop (XSIZE YSIZE n : Nat) (image : Nat → Pixel) (k : Nat) :
    (List.range k).foldl
        (fun img j => recvSlice img ((YSIZE / n * (j + 1) + YSIZE % n) * XSIZE)
          (workerProcess XSIZE (YSIZE / n)
            (sendSlice image ((YSIZE / n * (j + 1) + YSIZE % n) * XSIZE) (YSIZE / n * XSIZE))))
        (invertColor image XSIZE (YSIZE / n + YSIZE % n))
      = fun p => if p < (YSIZE / n * (k + 1) + YSIZE % n) * XSIZE then invertPixel (image p)
          else image p := by
  induction k with
  | zero =>
    funext p
    simp only [List.range_zero, List.foldl_nil, invertColor]
    have : XSIZE * (YSIZE / n + YSIZE % n) = (YSIZE / n * (0 + 1) + YSIZE % n) * XSIZE := by ring
    rw [this]
  | succ k ih =>
    rw [List.range_succ, List.foldl_append, ih]
    funext p
    simp only [List.foldl_cons, List.foldl_nil]
    rw [recvSlice_reply]
    have e : (YSIZE / n * (k + 1 + 1) + YSIZE % n) * XSIZE
        = (YSIZE / n * (k + 1) + YSIZE % n) * XSIZE + YSIZE / n * XSIZE := by ring
    rw [e]
    by_cases h1 : p < (YSIZE / n * (k + 1) + YSIZE % n) * XSIZE
    · have h2 : p < (YSIZE / n * (k + 1) + YSIZE % n) * XSIZE + YSIZE / n * XSIZE := by omega
      have h3 : ¬ ((YSIZE / n * (k + 1) + YSIZE % n) * XSIZE ≤ p
          ∧ p < (YSIZE / n * (k + 1) + YSIZE % n) * XSIZE + YSIZE / n * XSIZE) := by omega
      rw [if_neg h3, if_pos h1, if_pos h2]
    · by_cases h2 : p < (YSIZE / n * (k + 1) + YSIZE % n) * XSIZE + YSIZE / n * XSIZE
      · rw [if_pos ⟨by omega, h2⟩, if_pos h2]
      · have h3 : ¬ ((YSIZE / n * (k + 1) + YSIZE % n) * XSIZE ≤ p
            ∧ p < (YSIZE / n * (k + 1) + YSIZE % n) * XSIZE + YSIZE / n * XSIZE) := by omega
        rw [if_neg h3, if_neg h1, if_neg h2]

theorem rootProcess_apply (XSIZE YSIZE n : Nat) (hn : 1 ≤ n) (image : Nat → Pixel) (p : Nat) :
    rootProcess XSIZE YSIZE n image p
      = if p < XSIZE * YSIZE then invertPixel (image p) else image p := by
  unfold rootProcess
  simp only
  rw [receive_loop XSIZE YSIZE n image (n - 1)]
  have h1 : n - 1 + 1 = n := by omega
  have h2 : YSIZE / n * n + YSIZE % n = YSIZE := by
    rw [Nat.mul_comm]; exact Nat.div_add_mod YSIZE n
  simp only [h1, h2, Nat.mul_comm YSIZE XSIZE]

theorem inversion_rows_cover (q r0 k r : Nat) (h : r < q * (k + 1) + r0) :
    r < q + r0 ∨ ∃ i, 1 ≤ i ∧ i < k + 1 ∧ q * i + r0 ≤ r ∧ r < q * (i + 1) + r0 := by
  induction k with
  | zero => left; simpa using h
  | succ k ih =>
    rcases Nat.lt_or_ge r (q * (k + 1) + r0) with h1 | h1
    · rcases ih h1 with h2 | ⟨i, hi1, hi2, hi3, hi4⟩
      · exact Or.inl h2
      · exact Or.inr ⟨i, hi1, by omega, hi3, hi4⟩
    · exact Or.inr ⟨k + 1, by omega, by omega, h1, h⟩

/-- Claim C7: in the inversion program, with `invertColor` replacing each colour
component `c` by `255 - c` and each send/receive pair copying the addressed slice, for
every worker count `n ≥ 1` the raster saved by rank 0 is the loaded raster with every
pixel inverted once; rank 0's rows `[0, yScale + rest)` and the rows
`[yScale * i + rest, yScale * (i + 1) + rest)` of the workers `i` in `1 .. n-1` are
ordered, pairwise disjoint, inside the image, and cover all rows. -/
theorem inversion_all_pixels (XSIZE YSIZE n : Nat) (hn : 1 ≤ n) (image : Nat → Pixel) :
    (∀ p, p < XSIZE * YSIZE → rootProcess XSIZE YSIZE n image p = invertPixel (image p))
      ∧ (∀ i, 1 ≤ i → i < n → YSIZE / n + YSIZE % n ≤ YSIZE / n * i + YSIZE % n)
      ∧ (∀ i j, 1 ≤ i → i < j → j < n →
          YSIZE / n * (i + 1) + YSIZE % n ≤ YSIZE / n * j + YSIZE % n)
      ∧ (∀ i, i < n → YSIZE / n * (i + 1) + YSIZE % n ≤ YSIZE)
      ∧ (∀ r, r < YSIZE → r < YSIZE / n + YSIZE % n
          ∨ ∃ i, 1 ≤ i ∧ i < n ∧ YSIZE / n * i + YSIZE % n ≤ r
            ∧ r < YSIZE / n * (i + 1) + YSIZE % n) := by
  have hsum : YSIZE / n * n + YSIZE % n = YSIZE := by
    rw [Nat.mul_comm]; exact Nat.div_add_mod YSIZE n
  refine ⟨?_, ?_, ?_, ?_, ?_⟩
  · intro p hp
    rw [rootProcess_apply XSIZE YSIZE n hn image p, if_pos hp]
  · intro i hi _
    have : YSIZE / n * 1 ≤ YSIZE / n * i := Nat.mul_le_mul_left _ hi
    omega
  · intro i j _ hij _
    have : YSIZE / n * (i + 1) ≤ YSIZE / n * j := Nat.mul_le_mul_left _ hij
    omega
  · intro i hi
    have : YSIZE / n * (i + 1) ≤ YSIZE / n * n := Nat.mul_le_mul_left _ hi
    omega
  · intro r hr
    have h1 : n - 1 + 1 = n := by omega
    have := inversion_rows_cover (YSIZE / n) (YSIZE % n) (n - 1) r (by rw [h1, hsum]; exact hr)
    rw [h1] at this
    exact this

/-- Witness of `inversion_all_pixels`: the 4 by 4 raster of pixels (200, 100, 50) on 2
workers is split 2 rows / 2 rows and comes out as all (55, 155, 205). -/
theorem inversion_all_pixels_witness :
    (4 / 2 + 4 % 2 = 2 ∧ 4 / 2 * 1 + 4 % 2 = 2 ∧ 4 / 2 * (1 + 1) + 4 % 2 = 4)
      ∧ (List.range 16).map (rootProcess 4 4 2 plainRaster) = List.replicate 16 ⟨55, 155, 205⟩
      ∧ ∀ p, p < 4 * 4 → rootProcess 4 4 2 plainRaster p = invertPixel (plainRaster p) :=
  ⟨by decide, by decide, (inversion_all_pixels 4 4 2 (by decide) plainRaster).1⟩

/-! ## The kernel catalogue -/

/-- Claim C8 at the catalogue of lines 14-48: every dimension is odd and at least 1, and
every array except `sobelXKernel` has `D * D` entries; `sobelXKernel` has 10 entries for
its dimension 3 (a stray trailing 0), so not every kernel has exactly `D * D` weights. -/
theorem catalogue_sizes :
    (∀ e ∈ kernelCatalogue, e.2 % 2 = 1 ∧ 1 ≤ e.2)
      ∧ sobelYKernel.length = 3 * 3
      ∧ laplacian1Kernel.length = 3 * 3
      ∧ laplacian2Kernel.length = 3 * 3
      ∧ laplacian3Kernel.length = 3 * 3
      ∧ gaussianKernel.length = 5 * 5
      ∧ sobelXKernel.length = 10
      ∧ ¬ (∀ e ∈ kernelCatalogue, e.1.length = e.2 * e.2) := by
  decide

/-! ## The footprint sum computed by `applyKernel` -/

theorem coord_test (v : Int) (N : Nat) (hN : N < 2147483648) (h0 : -2147483648 ≤ v)
    (h1 : v < 4294967296) :
    ((toInt (toUInt v) ≥ 0 ∧ toInt (toUInt v) < (N : Int)) ↔ (0 ≤ v ∧ v < (N : Int)))
      ∧ (0 ≤ v → v < (N : Int) → toInt (toUInt v) = v) := by
  unfold toInt toUInt
  split <;> constructor <;> omega

theorem fold_add (step : Int → Nat → Int) (t : Nat → Int) (T : Nat) (B : Int) (n : Nat)
    (hstep : ∀ a j, j < n → |a| + (T : Int) ≤ B → step a j = a + t j ∧ |t j| ≤ (T : Int)) :
    ∀ m, m ≤ n → ∀ a : Int, |a| + (m : Int) * (T : Int) ≤ B →
      (List.range m).foldl step a = a + ((List.range m).map t).sum
        ∧ |((List.range m).map t).sum| ≤ (m : Int) * (T : Int) := by
  intro m
  induction m with
  | zero => intro _ a _; simp
  | succ m ih =>
    intro hm a ha
    have hT : (0 : Int) ≤ (T : Int) := Int.natCast_nonneg T
    have hmT : (0 : Int) ≤ (m : Int) * (T : Int) := mul_nonneg (Int.natCast_nonneg m) hT
    have e : ((m + 1 : Nat) : Int) * (T : Int) = (m : Int) * T + T := by push_cast; ring
    rw [e] at ha ⊢
    obtain ⟨h1, h2⟩ := ih (by omega) a (by omega)
    rw [List.range_succ, List.foldl_append, List.map_append, List.sum_append, h1]
    simp only [List.foldl_cons, List.foldl_nil, List.map_cons, List.map_nil, List.sum_cons,
      List.sum_nil, add_zero]
    have h3 := abs_add a ((List.range m).map t).sum
    obtain ⟨h4, h5⟩ := hstep (a + ((List.range m).map t).sum) m (by omega) (by omega)
    refine ⟨by rw [h4]; ring, ?_⟩
    have h6 := abs_add ((List.range m).map t).sum (t m)
    omega

theorem flipped_index_lt (D ky kx : Nat) (hD : D < 65536) (hky : ky < D) :
    (D - 1 - ky) * D + (D - 1 - kx) < D * D ∧ D * D < 4294967296 := by
  obtain ⟨d, rfl⟩ : ∃ d, D = d + 1 := ⟨D - 1, by omega⟩
  have h1 : (d + 1 - 1 - ky) * (d + 1) ≤ d * (d + 1) := Nat.mul_le_mul_right _ (by omega)
  have h2 : (d + 1) * (d + 1) = d * (d + 1) + d + 1 := by ring
  have h3 : d * (d + 1) ≤ 65535 * 65536 := Nat.mul_le_mul (by omega) (by omega)
  omega

theorem kernelTerm_eq (inp : Nat → Nat → Nat) (W H : Nat) (k : Nat → Int) (D M : Nat)
    (hW : W < 2147483648) (hH : H < 2147483648) (hD : D < 65536)
    (h8 : ∀ y x, y < H → x < W → inp y x < 256)
    (hM : ∀ i, i < D * D → |k i| ≤ (M : Int))
    (y x ky kx : Nat) (hy : y < H) (hx : x < W) (hky : ky < D) (hkx : kx < D) (agg : Int)
    (hagg : |agg| + ((255 * M : Nat) : Int) ≤ 2147483647) :
    kernelTerm inp W H k D y x ky kx agg = agg + footprintTerm inp W H k D y x ky kx
      ∧ |footprintTerm inp W H k D y x ky kx| ≤ ((255 * M : Nat) : Int) := by
  have hc2 : D / 2 < 65536 := by omega
  obtain ⟨hcy1, hcy2⟩ := coord_test ((y : Int) + ((ky : Int) - ((D / 2 : Nat) : Int))) H hH
    (by omega) (by omega)
  obtain ⟨hcx1, hcx2⟩ := coord_test ((x : Int) + ((kx : Int) - ((D / 2 : Nat) : Int))) W hW
    (by omega) (by omega)
  have hnky : toInt (toUInt ((D : Int) - 1 - (ky : Int))) = ((D - 1 - ky : Nat) : Int) := by
    have e : (D : Int) - 1 - (ky : Int) = ((D - 1 - ky : Nat) : Int) := by omega
    rw [e]; exact toInt_toUInt_natCast _ (by omega)
  have hnkx : toInt (toUInt ((D : Int) - 1 - (kx : Int))) = ((D - 1 - kx : Nat) : Int) := by
    have e : (D : Int) - 1 - (kx : Int) = ((D - 1 - kx : Nat) : Int) := by omega
    rw [e]; exact toInt_toUInt_natCast _ (by omega)
  obtain ⟨hi1, hi2⟩ := flipped_index_lt D ky kx hD hky
  have hidx : toUInt (((D - 1 - ky : Nat) : Int) * (D : Int) + ((D - 1 - kx : Nat) : Int))
      = (D - 1 - ky) * D + (D - 1 - kx) := by
    rw [← Nat.cast_mul, ← Nat.cast_add]
    exact toUInt_natCast _ (by omega)
  have hw := hM _ hi1
  have ey : (y : Int) + (ky : Int) - ((D / 2 : Nat) : Int)
      = (y : Int) + ((ky : Int) - ((D / 2 : Nat) : Int)) := by ring
  have ex : (x : Int) + (kx : Int) - ((D / 2 : Nat) : Int)
      = (x : Int) + ((kx : Int) - ((D / 2 : Nat) : Int)) := by ring
  unfold kernelTerm footprintTerm paddedSample
  simp only [hnky, hnkx, hidx, toInt_of_lt W hW, toInt_of_lt H hH, ey, ex]
  by_cases hc : (0 ≤ (x : Int) + ((kx : Int) - ((D / 2 : Nat) : Int))
      ∧ (x : Int) + ((kx : Int) - ((D / 2 : Nat) : Int)) < (W : Int)
      ∧ 0 ≤ (y : Int) + ((ky : Int) - ((D / 2 : Nat) : Int))
      ∧ (y : Int) + ((ky : Int) - ((D / 2 : Nat) : Int)) < (H : Int))
  · obtain ⟨c1, c2, c3, c4⟩ := hc
    have hcode : toInt (toUInt ((x : Int) + ((kx : Int) - ((D / 2 : Nat) : Int)))) ≥ 0
        ∧ toInt (toUInt ((x : Int) + ((kx : Int) - ((D / 2 : Nat) : Int)))) < (W : Int)
        ∧ toInt (toUInt ((y : Int) + ((ky : Int) - ((D / 2 : Nat) : Int)))) ≥ 0
        ∧ toInt (toUInt ((y : Int) + ((ky : Int) - ((D / 2 : Nat) : Int)))) < (H : Int) :=
      ⟨(hcx1.2 ⟨c1, c2⟩).1, (hcx1.2 ⟨c1, c2⟩).2, (hcy1.2 ⟨c3, c4⟩).1, (hcy1.2 ⟨c3, c4⟩).2⟩
    rw [if_pos hcode, if_pos ⟨c1, c2, c3, c4⟩, hcy2 c3 c4, hcx2 c1 c2]
    have hs := h8 ((y : Int) + ((ky : Int) - ((D / 2 : Nat) : Int))).toNat
      ((x : Int) + ((kx : Int) - ((D / 2 : Nat) : Int))).toNat (by omega) (by omega)
    generalize inp ((y : Int) + ((ky : Int) - ((D / 2 : Nat) : Int))).toNat
      ((x : Int) + ((kx : Int) - ((D / 2 : Nat) : Int))).toNat = s at hs ⊢
    generalize k ((D - 1 - ky) * D + (D - 1 - kx)) = w at hw ⊢
    have hprod : |(s : Int) * w| ≤ ((255 * M : Nat) : Int) := by
      rw [abs_mul]
      push_cast
      have hs2 : |(s : Int)| ≤ 255 := by rw [abs_of_nonneg (Int.natCast_nonneg s)]; omega
      exact mul_le_mul hs2 hw (abs_nonneg _) (by norm_num)
    have hb := abs_le.1 hprod
    have ha := abs_le.1 (show |agg| ≤ 2147483647 - ((255 * M : Nat) : Int) by omega)
    have hab : (0 : Int) ≤ |agg| := abs_nonneg _
    refine ⟨?_, hprod⟩
    rw [wrapInt_of_range ((s : Int) * w) (by omega) (by omega),
      wrapInt_of_range (agg + (s : Int) * w) (by omega) (by omega)]
  · have hcode : ¬ (toInt (toUInt ((x : Int) + ((kx : Int) - ((D / 2 : Nat) : Int)))) ≥ 0
        ∧ toInt (toUInt ((x : Int) + ((kx : Int) - ((D / 2 : Nat) : Int)))) < (W : Int)
        ∧ toInt (toUInt ((y : Int) + ((ky : Int) - ((D / 2 : Nat) : Int)))) ≥ 0
        ∧ toInt (toUInt ((y : Int) + ((ky : Int) - ((D / 2 : Nat) : Int)))) < (H : Int)) := by
      intro ⟨c1, c2, c3, c4⟩
      exact hc ⟨(hcx1.1 ⟨c1, c2⟩).1, (hcx1.1 ⟨c1, c2⟩).2, (hcy1.1 ⟨c3, c4⟩).1,
        (hcy1.1 ⟨c3, c4⟩).2⟩
    rw [if_neg hcode, if_neg hc]
    simp

theorem kernelRow_eq (inp : Nat → Nat → Nat) (W H : Nat) (k : Nat → Int) (D M : Nat)
    (hW : W < 2147483648) (hH : H < 2147483648) (hD : D < 65536)
    (h8 : ∀ y x, y < H → x < W → inp y x < 256)
    (hM : ∀ i, i < D * D → |k i| ≤ (M : Int))
    (y x ky : Nat) (hy : y < H) (hx : x < W) (hky : ky < D) (agg : Int)
    (hagg : |agg| + (D : Int) * ((255 * M : Nat) : Int) ≤ 2147483647) :
    kernelRow inp W H k D y x ky agg
        = agg + ((List.range D).map (fun kx => footprintTerm inp W H k D y x ky kx)).sum
      ∧ |((List.range D).map (fun kx => footprintTerm inp W H k D y x ky kx)).sum|
          ≤ (D : Int) * ((255 * M : Nat) : Int) := by
  unfold kernelRow
  exact fold_add (fun a kx => kernelTerm inp W H k D y x ky kx a)
    (fun kx => footprintTerm inp W H k D y x ky kx) (255 * M) 2147483647 D
    (fun a j hj ha => kernelTerm_eq inp W H k D M hW hH hD h8 hM y x ky j hy hx hky hj a ha)
    D (le_refl D) agg hagg

theorem kernelSum_eq (inp : Nat → Nat → Nat) (W H : Nat) (k : Nat → Int) (D M : Nat)
    (hW : W < 2147483648) (hH : H < 2147483648) (hD : D < 65536)
    (h8 : ∀ y x, y < H → x < W → inp y x < 256)
    (hM : ∀ i, i < D * D → |k i| ≤ (M : Int))
    (hB : D * D * (255 * M) ≤ 16777216)
    (y x : Nat) (hy : y < H) (hx : x < W) :
    kernelSum inp W H k D y x = convolutionSum inp W H k D y x := by
  unfold kernelSum convolutionSum
  have hB2 : ((D : Int) * ((D * (255 * M) : Nat) : Int)) ≤ 16777216 := by
    have : D * (D * (255 * M)) ≤ 16777216 := by rw [← Nat.mul_assoc]; exact hB
    exact_mod_cast this
  have h := fold_add (fun a ky => kernelRow inp W H k D y x ky a)
    (fun ky => ((List.range D).map (fun kx => footprintTerm inp W H k D y x ky kx)).sum)
    (D * (255 * M)) 2147483647 D
    (fun a j hj ha => by
      have ha2 : |a| + (D : Int) * ((255 * M : Nat) : Int) ≤ 2147483647 := by
        have e : ((D * (255 * M) : Nat) : Int) = (D : Int) * ((255 * M : Nat) : Int) := by
          push_cast; ring
        rw [e] at ha; exact ha
      have h := kernelRow_eq inp W H k D M hW hH hD h8 hM y x j hy hx hj a ha2
      refine ⟨h.1, ?_⟩
      have e : ((D * (255 * M) : Nat) : Int) = (D : Int) * ((255 * M : Nat) : Int) := by
        push_cast; ring
      rw [e]; exact h.2)
    D (le_refl D) 0 (by simp only [abs_zero, zero_add]; omega)
  rw [h.1, zero_add]

theorem storeSample_toNat (v : Int) : storeSample v = (clamp255 v).toNat := by
  have h := storeSample_eq_clamp v
  omega

/-- Claim C3, with the bounds the wording lacks on the kernel: for every plane of 8-bit
samples of width `W` and height `H` below 2^31, every kernel dimension `D` below 2^16
and kernel whose weights are bounded in absolute value by `M` with
`D * D * 255 * M ≤ 2^24` (no partial sum leaves the `int` range or the range in which
the `float` conversion is exact), and every cell `(x, y)` with `x < W` and `y < H`, the
aggregate of `applyKernel` is the footprint sum `S` with flipped kernel and zero
padding, and `out[y][x]` is `S` clamped to `[0, 255]` for the factor 1.0 and `S / 256`
truncated toward zero and clamped for the factor 1/256. -/
theorem applyKernel_convolution (out inp : Nat → Nat → Nat) (W H : Nat) (k : Nat → Int)
    (D M : Nat) (hW : W < 2147483648) (hH : H < 2147483648) (hD : D < 65536)
    (h8 : ∀ y x, y < H → x < W → inp y x < 256)
    (hM : ∀ i, i < D * D → |k i| ≤ (M : Int))
    (hB : D * D * (255 * M) ≤ 16777216)
    (y x : Nat) (hy : y < H) (hx : x < W) :
    kernelSum inp W H k D y x = convolutionSum inp W H k D y x
      ∧ applyKernel out inp W H k D ⟨1, 1⟩ y x
          = (clamp255 (convolutionSum inp W H k D y x)).toNat
      ∧ applyKernel out inp W H k D ⟨1, 256⟩ y x
          = (clamp255 (Int.tdiv (convolutionSum inp W H k D y x) 256)).toNat := by
  have hS := kernelSum_eq inp W H k D M hW hH hD h8 hM hB y x hy hx
  refine ⟨hS, ?_, ?_⟩
  · rw [applyKernel_cell _ _ _ _ _ _ _ _ _ hy hx]
    unfold cellValue scaleAggregate
    rw [hS, storeSample_toNat]
    simp
  · rw [applyKernel_cell _ _ _ _ _ _ _ _ _ hy hx]
    unfold cellValue scaleAggregate
    rw [hS, storeSample_toNat]
    simp

/-- Witness of `applyKernel_convolution`: on the 3 by 2 plane of constant 10 the
laplacian kernel gives 60 at cell (1, 1), the zero-padded row below contributing
nothing. -/
theorem applyKernel_convolution_witness :
    convolutionSum (fun _ _ => 10) 3 2 (kernelPtr laplacian1Kernel) 3 1 1 = 60
      ∧ (kernelSum (fun _ _ => 10) 3 2 (kernelPtr laplacian1Kernel) 3 1 1
          = convolutionSum (fun _ _ => 10) 3 2 (kernelPtr laplacian1Kernel) 3 1 1
        ∧ applyKernel (fun _ _ => 0) (fun _ _ => 10) 3 2 (kernelPtr laplacian1Kernel) 3
            ⟨1, 1⟩ 1 1
          = (clamp255 (convolutionSum (fun _ _ => 10) 3 2 (kernelPtr laplacian1Kernel) 3
              1 1)).toNat
        ∧ applyKernel (fun _ _ => 0) (fun _ _ => 10) 3 2 (kernelPtr laplacian1Kernel) 3
            ⟨1, 256⟩ 1 1
          = (clamp255 (Int.tdiv (convolutionSum (fun _ _ => 10) 3 2
              (kernelPtr laplacian1Kernel) 3 1 1) 256)).toNat) :=
  ⟨by decide,
    applyKernel_convolution (fun _ _ => 0) (fun _ _ => 10) 3 2 (kernelPtr laplacian1Kernel)
      3 20 (by decide) (by decide) (by decide)
      (by intro _ _ _ _; show (10 : Nat) < 256; decide)
      (by
        intro i hi
        have hi9 : i < 9 := hi
        interval_cases i <;> simp [kernelPtr, laplacian1Kernel, abs_le])
      (by decide) 1 1 (by decide) (by decide)⟩

/-- Claim C3 as worded ("every kernel of integer weights") fails when the footprint sum
leaves the `int` range: on the 1 by 1 plane holding 255 with the 1 by 1 kernel
`{8421505}` and factor 1.0 the sum `S` is 2^31 + 127 and its clamp is 255, but the `int`
aggregate wraps to a negative value and `applyKernel` stores 0. -/
theorem applyKernel_convolution_overflow :
    convolutionSum (fun _ _ => 255) 1 1 (kernelPtr [8421505]) 1 0 0 = 2147483775
      ∧ kernelSum (fun _ _ => 255) 1 1 (kernelPtr [8421505]) 1 0 0 = -2147483521
      ∧ applyKernel (fun _ _ => 0) (fun _ _ => 255) 1 1 (kernelPtr [8421505]) 1 ⟨1, 1⟩ 0 0 = 0
      ∧ (clamp255 (convolutionSum (fun _ _ => 255) 1 1 (kernelPtr [8421505]) 1 0 0)).toNat
          = 255 := by
  refine ⟨by decide, by decide, by decide, ?_⟩
  have h : convolutionSum (fun _ _ => 255) 1 1 (kernelPtr [8421505]) 1 0 0 = 2147483775 := by
    decide
  rw [h]
  decide

/-! ## Scatter, per-rank work and gather -/

theorem iterate_data (ch : BmpImageChannel) (fresh : Nat) (k : Nat → Int) (D : Nat)
    (f : KernelFactor) (its y x : Nat) (hy : y < ch.height) (hx : x < ch.width) :
    (iterate ch fresh k D f its).2.data y x = passes ch.width ch.height k D f its ch.data y x :=
  (iterationLoop_spec k D f ch.width ch.height its
    { addr := fresh, width := ch.width, height := ch.height, data := fun _ _ => 0 } ch
    rfl rfl rfl rfl).1 y x hy hx

theorem countsValid_of_bound (W H n : Nat) (hn : 1 ≤ n) (hWH : W * H < 2147483648) :
    countsValid W H n (W * H) = true := by
  unfold countsValid
  rw [List.all_eq_true]
  intro i hi
  have hi2 : i < n := List.mem_range.1 hi
  rw [decide_eq_true_iff, displs_eq W H n i hn hi2 hWH, sendCounts_eq W H n i hn hi2 hWH]
  refine ⟨Int.natCast_nonneg _, Int.natCast_nonneg _, ?_⟩
  have h1 := rowStart_add_rowCount_le H n i hi2
  have h2 := Nat.mul_le_mul_right W h1
  have h3 : (rowStart H n i + rowCount H n i) * W = rowStart H n i * W + rowCount H n i * W := by
    ring
  rw [Nat.mul_comm H W] at h2
  have h4 : rowStart H n i * W + rowCount H n i * W ≤ W * H := by omega
  exact_mod_cast h4

theorem rankBuffer_rawdata (image : BmpImage) (n i : Nat) (hn : 1 ≤ n) (hi : i < n)
    (hWH : image.width * image.height < 2147483648) (j : Nat)
    (hj : j < rowCount image.height n i * image.width) :
    (rankBuffer image n i).rawdata j
      = image.rawdata (rowStart image.height n i * image.width + j) := by
  unfold rankBuffer scatterSlice
  simp only
  rw [displs_eq _ _ n i hn hi hWH, sendCounts_eq _ _ n i hn hi hWH]
  have h1 : ((j : Nat) : Int) < ((rowCount image.height n i * image.width : Nat) : Int) := by
    exact_mod_cast hj
  rw [if_pos h1]
  congr 1

theorem rankBuffer_height (image : BmpImage) (n i : Nat) (hn : 1 ≤ n) (hi : i < n)
    (hH : image.height < 2147483648) :
    (rankBuffer image n i).height = rowCount image.height n i := by
  show toUInt (heightScale image.width image.height n i) = rowCount image.height n i
  rw [heightScale_eq _ _ n i hn hi hH]
  have h1 := rowStart_add_rowCount_le image.height n i hi
  exact toUInt_natCast _ (by omega)

theorem rankWork_pixel (image : BmpImage) (n i : Nat) (k : Nat → Int) (D : Nat)
    (f : KernelFactor) (its : Nat) (hn : 1 ≤ n) (hi : i < n)
    (hWH : image.width * image.height < 2147483648) (j : Nat)
    (hj : j < rowCount image.height n i * image.width) :
    (rankWork (rankBuffer image n i) k D f its).rawdata j
      = mapEqual (passes image.width (rowCount image.height n i) k D f its
          (slicePlane (planeOf image) image.height n i) (j / image.width) (j % image.width)) := by
  have hW : 0 < image.width := by
    rcases Nat.eq_zero_or_pos image.width with h | h
    · rw [h] at hj; simp at hj
    · exact h
  have hH : image.height < 2147483648 := by
    have : image.height ≤ image.width * image.height := Nat.le_mul_of_pos_left _ hW
    omega
  have hh := rankBuffer_height image n i hn hi hH
  have hw : (rankBuffer image n i).width = image.width := rfl
  have hx : j % image.width < image.width := Nat.mod_lt _ hW
  have hy : j / image.width < rowCount image.height n i := by
    rw [Nat.div_lt_iff_lt_mul hW]; exact hj
  show (if j < (rankBuffer image n i).width * (rankBuffer image n i).height then
      mapEqual ((iterate (extractImageChannel
        (newBmpImageChannel 1 (rankBuffer image n i).width (rankBuffer image n i).height)
        (rankBuffer image n i) extractAverage) 2 k D f its).2.data
          (j / (rankBuffer image n i).width) (j % (rankBuffer image n i).width))
    else (rankBuffer image n i).rawdata j) = _
  rw [hw, hh, if_pos (by rw [Nat.mul_comm]; exact hj)]
  congr 1
  rw [iterate_data _ _ _ _ _ _ _ _ (by show j / image.width < rowCount image.height n i; exact hy)
    (by show j % image.width < image.width; exact hx)]
  show passes image.width (rowCount image.height n i) k D f its _ _ _ = _
  apply passes_congr image.width (rowCount image.height n i) k D f its _ _ _ _ _ hy hx
  intro y1 x1 hy1 hx1
  show (if y1 < rowCount image.height n i ∧ x1 < image.width then
      extractAverage ((rankBuffer image n i).rawdata (y1 * (rankBuffer image n i).width + x1))
    else 0) = _
  rw [if_pos ⟨hy1, hx1⟩, hw, rankBuffer_rawdata image n i hn hi hWH]
  · unfold slicePlane planeOf
    congr 2
    ring
  · have h1 : y1 * image.width + image.width ≤ rowCount image.height n i * image.width := by
      have := Nat.mul_le_mul_right image.width (Nat.succ_le_of_lt hy1)
      rw [Nat.succ_mul] at this
      exact this
    omega

theorem gather_fold (W H n : Nat) (hn : 1 ≤ n) (hWH : W * H < 2147483648)
    (src : Nat → Nat → Pixel) (base : Nat → Pixel) (m : Nat) (hm : m ≤ n) :
    ∀ i, i < m → ∀ j, j < rowCount H n i * W →
      (List.range m).foldl
          (fun rb i => gatherSlice rb (displs W H n i) (sendCounts W H n i) (src i)) base
          (rowStart H n i * W + j)
        = src i j := by
  induction m with
  | zero => intro i hi; omega
  | succ m ih =>
    intro i hi j hj
    rw [List.range_succ, List.foldl_append]
    simp only [List.foldl_cons, List.foldl_nil]
    unfold gatherSlice
    rw [displs_eq W H n m hn (by omega) hWH, sendCounts_eq W H n m hn (by omega) hWH]
    rcases Nat.lt_or_ge i m with h | h
    · have h1 : rowStart H n (i + 1) ≤ rowStart H n m := rowStart_mono H n (i + 1) m h
      have h2 := Nat.mul_le_mul_right W h1
      rw [rowStart_succ, Nat.add_mul] at h2
      have h3 : ¬ (((rowStart H n m * W : Nat) : Int) ≤ ((rowStart H n i * W + j : Nat) : Int)
          ∧ ((rowStart H n i * W + j : Nat) : Int)
            < ((rowStart H n m * W : Nat) : Int) + ((rowCount H n m * W : Nat) : Int)) := by
        omega
      rw [if_neg h3]
      exact ih (by omega) i h j hj
    · have h1 : i = m := by omega
      subst h1
      have h3 : (((rowStart H n i * W : Nat) : Int) ≤ ((rowStart H n i * W + j : Nat) : Int)
          ∧ ((rowStart H n i * W + j : Nat) : Int)
            < ((rowStart H n i * W : Nat) : Int) + ((rowCount H n i * W : Nat) : Int)) := by
        omega
      rw [if_pos h3]
      congr 1
      omega

theorem planeSamples_eq (W h : Nat) (P : Nat → Nat → Nat) :
    planeSamples W h P = (List.range (h * W)).map (fun j => P (j / W) (j % W)) := by
  unfold planeSamples
  induction h with
  | zero => simp
  | succ h ih =>
    rw [List.range_succ, List.flatMap_append, ih, Nat.succ_mul, List.range_add, List.map_append,
      List.map_map]
    congr 1
    simp only [List.flatMap_cons, List.flatMap_nil, List.append_nil]
    apply List.map_congr_left
    intro x hx
    have hx2 : x < W := List.mem_range.1 hx
    have hW : 0 < W := by omega
    simp only [Function.comp]
    have e1 : (h * W + x) / W = h := by
      rw [Nat.mul_comm, Nat.mul_add_div hW, Nat.div_eq_of_lt hx2, Nat.add_zero]
    have e2 : (h * W + x) % W = x := by
      rw [Nat.mul_comm, Nat.mul_add_mod, Nat.mod_eq_of_lt hx2]
    rw [e1, e2]

theorem gathered_prefix (W H n : Nat) (g : Nat → Pixel) (P : Nat → Nat → Nat → Nat)
    (hg : ∀ i, i < n → ∀ j, j < rowCount H n i * W →
      g (rowStart H n i * W + j) = mapEqual (P i (j / W) (j % W))) :
    ∀ m, m ≤ n → (List.range (rowStart H n m * W)).map g
      = ((List.range m).flatMap (fun i => planeSamples W (rowCount H n i) (P i))).map mapEqual := by
  intro m
  induction m with
  | zero => intro _; simp [rowStart_zero]
  | succ m ih =>
    intro hm
    rw [rowStart_succ, Nat.add_mul, List.range_add, List.map_append, ih (by omega),
      List.range_succ, List.flatMap_append, List.map_append, List.map_map]
    congr 1
    simp only [List.flatMap_cons, List.flatMap_nil, List.append_nil]
    rw [planeSamples_eq, List.map_map]
    apply List.map_congr_left
    intro j hj
    simp only [Function.comp]
    exact hg m (by omega) j (List.mem_range.1 hj)

theorem extractAverage_mapEqual (v : Nat) : extractAverage (mapEqual v) = v := by
  unfold extractAverage mapEqual
  simp only
  omega

/-- Claim C9, with the bound the wording lacks: for every raster of width `W` and height
`H` with `W * H < 2^31`, worker count `n` with `H ≥ n ≥ 1`, kernel and iteration count,
the program returns a raster whose plane, row by row, is the concatenation in
worker-index order of the iterated single pass run independently on each worker's own
row slice (zero padding at the slice's first and last rows), every pixel holding its
sample in all three components; the result depends on `n`: for the constant plane of
value 10 with `W = 3`, `H = 4`, the laplacian1 kernel and 1 iteration, cell
`(x = 1, y = 1)` is 60 with 2 workers and 0 with 1 worker. -/
theorem gather_seams (image : BmpImage) (n : Nat) (k : Nat → Int) (D : Nat) (f : KernelFactor)
    (its : Nat) (hn : 1 ≤ n) (hnH : n ≤ image.height)
    (hWH : image.width * image.height < 2147483648) :
    (∃ out, convolutionProgram image n k D f its = some out
        ∧ out.width = image.width ∧ out.height = image.height
        ∧ planeSamples image.width image.height (planeOf out)
            = seamedSamples (planeOf image) image.width image.height n k D f its
        ∧ (List.range (image.width * image.height)).map out.rawdata
            = (seamedSamples (planeOf image) image.width image.height n k D f its).map mapEqual)
      ∧ (convolutionProgram greyRaster 2 (kernelPtr laplacian1Kernel) 3 laplacian1KernelFactor
          1).map (fun o => planeOf o 1 1) = some 60
      ∧ (convolutionProgram greyRaster 1 (kernelPtr laplacian1Kernel) 3 laplacian1KernelFactor
          1).map (fun o => planeOf o 1 1) = some 0 := by
  have _ := hnH
  refine ⟨?_, by decide, by decide⟩
  have hraw : (List.range (image.width * image.height)).map
      ((List.range n).foldl
        (fun recvbuf i =>
          gatherSlice recvbuf (displs image.width image.height n i)
            (sendCounts image.width image.height n i)
            (rankWork (rankBuffer image n i) k D f its).rawdata)
        image.rawdata)
      = (seamedSamples (planeOf image) image.width image.height n k D f its).map mapEqual := by
    have h := gathered_prefix image.width image.height n
      ((List.range n).foldl
        (fun recvbuf i =>
          gatherSlice recvbuf (displs image.width image.height n i)
            (sendCounts image.width image.height n i)
            (rankWork (rankBuffer image n i) k D f its).rawdata)
        image.rawdata)
      (fun i => passes image.width (rowCount image.height n i) k D f its
        (slicePlane (planeOf image) image.height n i))
      (by
        intro i hi j hj
        rw [gather_fold image.width image.height n hn hWH
          (fun i => (rankWork (rankBuffer image n i) k D f its).rawdata) image.rawdata n
          (le_refl n) i hi j hj]
        exact rankWork_pixel image n i k D f its hn hi hWH j hj)
      n (le_refl n)
    rw [rowStart_last image.height n hn, Nat.mul_comm] at h
    exact h
  refine ⟨{ image with
      rawdata := (List.range n).foldl
        (fun recvbuf i =>
          gatherSlice recvbuf (displs image.width image.height n i)
            (sendCounts image.width image.height n i)
            (rankWork (rankBuffer image n i) k D f its).rawdata)
        image.rawdata }, ?_, rfl, rfl, ?_, hraw⟩
  · unfold convolutionProgram
    rw [if_pos (countsValid_of_bound image.width image.height n hn hWH)]
  · rw [planeSamples_eq]
    have e : (fun j : Nat => planeOf { image with
        rawdata := (List.range n).foldl
          (fun recvbuf i =>
            gatherSlice recvbuf (displs image.width image.height n i)
              (sendCounts image.width image.height n i)
              (rankWork (rankBuffer image n i) k D f its).rawdata)
          image.rawdata } (j / image.width) (j % image.width))
        = extractAverage ∘ ((List.range n).foldl
          (fun recvbuf i =>
            gatherSlice recvbuf (displs image.width image.height n i)
              (sendCounts image.width image.height n i)
              (rankWork (rankBuffer image n i) k D f its).rawdata)
          image.rawdata) := by
      funext j
      simp only [planeOf, Function.comp]
      rw [Nat.div_add_mod']
    rw [e, ← List.map_map, Nat.mul_comm image.height image.width, hraw, List.map_map]
    have e2 : extractAverage ∘ mapEqual = id := by
      funext v
      exact extractAverage_mapEqual v
    rw [e2, List.map_id]

/-- Witness of `gather_seams`: the 3 by 4 raster of constant 10 on 2 workers. -/
theorem gather_seams_witness :
    seamedSamples (planeOf greyRaster) 3 4 2 (kernelPtr laplacian1Kernel) 3
        laplacian1KernelFactor 1 = [110, 60, 110, 110, 60, 110, 110, 60, 110, 110, 60, 110]
      ∧ ∃ out, convolutionProgram greyRaster 2 (kernelPtr laplacian1Kernel) 3
          laplacian1KernelFactor 1 = some out
        ∧ out.width = greyRaster.width ∧ out.height = greyRaster.height
        ∧ planeSamples greyRaster.width greyRaster.height (planeOf out)
            = seamedSamples (planeOf greyRaster) greyRaster.width greyRaster.height 2
                (kernelPtr laplacian1Kernel) 3 laplacian1KernelFactor 1
        ∧ (List.range (greyRaster.width * greyRaster.height)).map out.rawdata
            = (seamedSamples (planeOf greyRaster) greyRaster.width greyRaster.height 2
                (kernelPtr laplacian1Kernel) 3 laplacian1KernelFactor 1).map mapEqual :=
  ⟨by decide,
    (gather_seams greyRaster 2 (kernelPtr laplacian1Kernel) 3 laplacian1KernelFactor 1
      (by decide) (by decide) (by decide)).1⟩

/-- Claim C9 as worded (every width and height) fails when the pixel count does not fit
an `int`: for a raster of 65536 by 32768 pixels on one worker (`H ≥ n ≥ 1`),
`sendCounts[0]` is -2^31, the scatter is called with a negative count and no plane is
reassembled. -/
theorem gather_seams_overflow :
    (1 : Nat) ≤ hugeRaster.height
      ∧ sendCounts hugeRaster.width hugeRaster.height 1 0 = -2147483648
      ∧ (convolutionProgram hugeRaster 1 (kernelPtr laplacian1Kernel) 3 laplacian1KernelFactor
          1).isSome = false := by
  decide

end TDT4200
